import Mathlib

/-!
Verification development for the Ephemeris event-expansion and overlap-layout
engine, a shallow embedding of `src/ephemeris/event_processing.py`,
`src/ephemeris/calendar_loader.py` and the per-day loop of `src/ephemeris.py`.

Modelling conventions:

* Timestamps are minutes on an absolute local-time axis, as `Int`; a calendar
  date is its day number, and local midnight of day `d` is `d * 1440`.
  Python's timezone machinery (`pytz`, `tz_factory`, `astimezone`) always
  converts into the single configured local timezone before any comparison the
  claims talk about, so timezone conversion is modelled as the identity and
  all stored datetimes are already local.  `datetime.date()` is floor division
  by 1440, which is `Int`'s `/` (Euclidean division, floor for a positive
  divisor, matching Python's `//`).
* `icalendar` components are modelled by the record `VEvent` holding exactly
  the decoded properties the code reads.  A DATE vs DATE-TIME property value
  is `DtValue`.  The recurrence library (`dateutil.rrulestr`) is external; a
  component's rule is modelled by the list of occurrence datetimes the rule
  generates, and `rule.between(sod, sod_next, inc=True)` is the filter
  `sod ≤ t ≤ sod_next` over that list.
* The global `settings` module is not part of the provided sources; the grid
  hours and the off-grid policy it supplies are threaded as an explicit
  `Config` record.
* Python's stable `sorted` is modelled by a stable insertion sort `sortB`.
* Python `float` division in width fractions is modelled by exact `ℚ`.
-/

namespace Ephemeris

/-- Grid configuration, standing for `settings.START_HOUR`, `settings.END_HOUR`
and `settings.CONVERT_OFFGRID_TO_ALLDAY` (the `settings` module is supplied by
the environment, outside the provided sources). -/
structure Config where
  start_hour : Int
  end_hour : Int
  convert_offgrid : Bool
deriving DecidableEq, Repr

/-- A decoded DTSTART/DTEND/RECURRENCE-ID value: either a DATE (day number) or
a DATE-TIME (absolute minutes, already local). -/
inductive DtValue
  | d (day : Int)
  | dt (t : Int)
deriving DecidableEq, Repr

/-- One parsed VEVENT component: the decoded properties read by
`event_processing.py`.  `rrule` is the list of occurrence datetimes generated
by the component's recurrence rule (the `dateutil` library is modelled at its
interface).  `dtstamp`, `created`, `last_modified` and `sequence` are the
volatile bookkeeping properties popped by `compute_events_hash`. -/
structure VEvent where
  uid : String
  summary : String
  dtstart : DtValue
  dtend : Option DtValue
  duration : Option Int
  rrule : Option (List Int)
  exdates : List Int
  recurrence_id : Option Int
  dtstamp : Option String
  created : Option String
  last_modified : Option String
  sequence : Option String
deriving DecidableEq, Repr

/-- One entry of the raw-event list: `(component, color, tz_factory, name)`;
the timezone factory is the identity in this model and is omitted. -/
structure RawEvent where
  comp : VEvent
  color : String
  name : String
deriving DecidableEq, Repr

/-- EventInstance metadata: the `meta` dict built by `expand_event_for_day`. -/
structure Meta where
  uid : String
  calendar_color : String
  all_day : Bool
  time_label : Option String
deriving DecidableEq, Repr

/-- One expanded EventInstance `(start_local, end_local, title, meta)`. -/
structure Inst where
  start : Int
  stop : Int
  title : String
  meta : Meta
deriving DecidableEq, Repr

/-- Python `date + timedelta` keeps only whole days of the delta;
`datetime + timedelta` adds it exactly. -/
def addDur : DtValue → Int → DtValue
  | DtValue.d day, dur => DtValue.d (day + dur / 1440)
  | DtValue.dt t, dur => DtValue.dt (t + dur)

/-- The `normalize` helper of `expand_event_for_day`: a DATE becomes local
midnight, a DATE-TIME is already local (timezone attachment and conversion are
the identity in this model). -/
def normalize : DtValue → Int
  | DtValue.d day => day * 1440
  | DtValue.dt t => t

/-- `_get_raw_end`: DTEND if present, else DTSTART + DURATION, else DTSTART. -/
def _get_raw_end (comp : VEvent) : DtValue :=
  match comp.dtend with
  | some e => e
  | none =>
    match comp.duration with
    | some dur => addDur comp.dtstart dur
    | none => comp.dtstart

/-- Inputs on which the date-only branch of `expand_event_for_day` raises.
Python's `datetime` subclasses `date`, so `isinstance(dtend_raw, date)` at
line 181 is true even for a DATE-TIME end and the `.date()` conversion is
dead code; `dtend_date` then stays a DATE-TIME and the chained comparison
`start_raw <= target_date < dtend_date` at line 182 raises `TypeError` as
soon as its first half holds (when it fails, the comparison short-circuits
and the branch returns no instance).  On inputs satisfying this predicate
the program has no defined result, so no theorem below asserts anything
about the value of `expand_event_for_day` there. -/
def expand_raises_type_error (comp : VEvent) (target_date : Int) : Prop :=
  match comp.dtstart, _get_raw_end comp with
  | DtValue.d start_day, DtValue.dt _ => start_day ≤ target_date
  | _, _ => False

/-- Zero-pad a clock number to two digits. -/
def pad2 (n : Nat) : String :=
  if n < 10 then ("0") ++ toString n else toString n

/-- Modelled from the spec: `fmt_time` lives in `ephemeris/utils.py`, which is
not among the provided sources.  The spec says the off-grid label records the
original times in the configured clock style; we model the 24-hour style
`HH:MM` used in the spec's own example `"22:00–23:00"`. -/
def fmt_time (t : Int) : String :=
  pad2 ((t % 1440).toNat / 60) ++ ":" ++ pad2 ((t % 1440).toNat % 60)

/-- `build_override_map`: for every component carrying a RECURRENCE-ID, record
that datetime under the component's UID (queried as a set). -/
def build_override_map (raws : List RawEvent) : String → List Int := fun uid =>
  raws.filterMap (fun r =>
    match r.comp.recurrence_id with
    | some rid => if r.comp.uid = uid then some rid else none
    | none => none)

/-- The final loop of `expand_event_for_day` (lines 245-267): drop instances
that do not overlap the day at all; if the off-grid policy is on and the
instance ends before grid start or starts after grid end, clamp it into
`[sod, sod_next]`, flag it all-day and attach the original-time label. -/
def offgrid_pass (cfg : Config) (sod sod_next : Int) (instances : List Inst) : List Inst :=
  let grid_start := sod + cfg.start_hour * 60
  let grid_end := sod + cfg.end_hour * 60
  instances.filterMap (fun inst =>
    if inst.stop > sod ∧ inst.start < sod_next then
      if cfg.convert_offgrid = true ∧ (inst.stop ≤ grid_start ∨ inst.start ≥ grid_end) then
        some ⟨max inst.start sod, min inst.stop sod_next, inst.title,
              ⟨inst.meta.uid, inst.meta.calendar_color, true,
               some (fmt_time inst.start ++ "–" ++ fmt_time inst.stop)⟩⟩
      else some inst
    else none)

/-- `expand_event_for_day`: expand one VEVENT for one target date.  The
provisional inline end of lines 143-148 is recomputed by `_get_raw_end` in
every branch that uses an end, so the dead binding is not modelled. -/
def expand_event_for_day (cfg : Config) (comp : VEvent) (color : String)
    (target_date : Int) (override_map : String → List Int) : List Inst :=
  let uid := comp.uid
  let start := normalize comp.dtstart
  let sod := target_date * 1440
  let sod_next := sod + 1440
  match comp.dtstart with
  | DtValue.d start_day =>
    -- date-only component.  Line 181 binds `dtend_date = dtend_raw if
    -- isinstance(dtend_raw, date) else dtend_raw.date()`; since datetime
    -- subclasses date the else-branch is dead and the raw end is kept as is.
    match _get_raw_end comp with
    | DtValue.d dtend_date =>
      -- all-day on every date in [start_day, dtend_date)
      if start_day ≤ target_date ∧ target_date < dtend_date then
        [⟨sod, sod_next, comp.summary, ⟨uid, color, true, none⟩⟩]
      else []
    | DtValue.dt _ =>
      -- the chained comparison at line 182 short-circuits to False when
      -- start_day > target_date; otherwise it raises TypeError (date vs
      -- datetime), i.e. exactly when `expand_raises_type_error` holds, and
      -- this returned value is not the program's behaviour there
      []
  | DtValue.dt _ =>
    let instances :=
      match comp.rrule with
      | some occs =>
        -- recurring: rule occurrences in [sod, sod_next] inclusive, minus
        -- overridden instants and exception dates
        let end0 := normalize (_get_raw_end comp)
        (occs.filter (fun occ => decide (sod ≤ occ) && decide (occ ≤ sod_next))).filterMap
          (fun occ =>
            if occ ∈ override_map uid then none
            else if occ ∈ comp.exdates then none
            else some ⟨occ, occ + (end0 - start), comp.summary, ⟨uid, color, false, none⟩⟩)
      | none =>
        -- one-off, only when the normalized start lands on the target date
        if start / 1440 = target_date then
          [⟨start, normalize (_get_raw_end comp), comp.summary, ⟨uid, color, false, none⟩⟩]
        else []
    offgrid_pass cfg sod sod_next instances

/-- `split_all_day_events`: an instance goes to the all-day bucket iff its
metadata flags it all-day or `st <= sod and en >= sod_next`. -/
def split_all_day_events (events : List Inst) (target_date : Int) : List Inst × List Inst :=
  let sod := target_date * 1440
  let sod_next := sod + 1440
  events.partition (fun e =>
    e.meta.all_day || (decide (e.start ≤ sod) && decide (sod_next ≤ e.stop)))

/-- Stable insertion of `x` into a sorted list: `x` goes after every earlier
element `y` with `le y x`. -/
def insertSorted (le : α → α → Bool) (x : α) : List α → List α
  | [] => [x]
  | y :: ys => if le y x then y :: insertSorted le x ys else x :: y :: ys

/-- Python's stable `sorted`, modelled by left-to-right stable insertion. -/
def sortB (le : α → α → Bool) (l : List α) : List α :=
  l.foldl (fun acc x => insertSorted le x acc) []

theorem insertSorted_perm (le : α → α → Bool) (x : α) (l : List α) :
    (insertSorted le x l).Perm (x :: l) := by
  induction l with
  | nil => simp [insertSorted]
  | cons y ys ih =>
    simp only [insertSorted]
    by_cases h : le y x = true
    · rw [if_pos h]
      exact (ih.cons y).trans (List.Perm.swap x y ys)
    · rw [if_neg h]

theorem sortB_perm (le : α → α → Bool) (l : List α) : (sortB le l).Perm l := by
  suffices h : ∀ (l acc : List α), (l.foldl (fun acc x => insertSorted le x acc) acc).Perm (acc ++ l) by
    simpa using h l []
  intro l
  induction l with
  | nil => simp
  | cons x xs ih =>
    intro acc
    simp only [List.foldl_cons]
    refine (ih (insertSorted le x acc)).trans ?_
    have h1 : (insertSorted le x acc ++ xs).Perm ((x :: acc) ++ xs) :=
      (insertSorted_perm le x acc).append_right xs
    refine h1.trans ?_
    simpa using List.perm_middle.symm

theorem mem_insertSorted {le : α → α → Bool} {x z : α} {l : List α} :
    z ∈ insertSorted le x l ↔ z = x ∨ z ∈ l := by
  induction l with
  | nil => simp [insertSorted]
  | cons y ys ih =>
    simp only [insertSorted]
    by_cases h : le y x = true
    · rw [if_pos h]
      simp only [List.mem_cons, ih]
      tauto
    · rw [if_neg h]
      simp [List.mem_cons]

theorem insertSorted_pairwise {le : α → α → Bool}
    (htot : ∀ a b, le a b = true ∨ le b a = true)
    (htrans : ∀ a b c, le a b = true → le b c = true → le a c = true)
    {x : α} {l : List α} (hl : l.Pairwise (fun a b => le a b = true)) :
    (insertSorted le x l).Pairwise (fun a b => le a b = true) := by
  induction l with
  | nil => simp [insertSorted]
  | cons y ys ih =>
    simp only [insertSorted]
    cases hl with
    | cons hy hys =>
    by_cases h : le y x = true
    · rw [if_pos h]
      refine List.Pairwise.cons ?_ (ih hys)
      intro z hz
      rcases mem_insertSorted.mp hz with rfl | hz
      · exact h
      · exact hy z hz
    · rw [if_neg h]
      have hxy : le x y = true := (htot x y).resolve_right (fun hc => h hc)
      refine List.Pairwise.cons ?_ (List.Pairwise.cons hy hys)
      intro z hz
      rcases List.mem_cons.mp hz with rfl | hz
      · exact hxy
      · exact htrans x y z hxy (hy z hz)

theorem sortB_pairwise {le : α → α → Bool}
    (htot : ∀ a b, le a b = true ∨ le b a = true)
    (htrans : ∀ a b c, le a b = true → le b c = true → le a c = true)
    (l : List α) : (sortB le l).Pairwise (fun a b => le a b = true) := by
  suffices h : ∀ (l acc : List α), acc.Pairwise (fun a b => le a b = true) →
      (l.foldl (fun acc x => insertSorted le x acc) acc).Pairwise (fun a b => le a b = true) by
    exact h l [] (by simp)
  intro l
  induction l with
  | nil => intro acc h; simpa using h
  | cons x xs ih =>
    intro acc h
    exact ih _ (insertSorted_pairwise htot htrans h)

/-- Two sorted lists that are permutations of each other are equal, provided
the order is antisymmetric on the members of the first one. -/
theorem sorted_perm_eq {R : α → α → Prop} :
    ∀ {l₁ l₂ : List α}, l₁.Perm l₂ → l₁.Pairwise R → l₂.Pairwise R →
      (∀ a ∈ l₁, ∀ b ∈ l₁, R a b → R b a → a = b) → l₁ = l₂
  | [], l₂, hp, _, _, _ => by simpa using (List.Perm.nil_eq hp).symm
  | a :: t₁, [], hp, _, _, _ => by simp at hp
  | a :: t₁, b :: t₂, hp, h₁, h₂, hanti => by
    cases h₁ with
    | cons ha ht₁ =>
    cases h₂ with
    | cons hb ht₂ =>
    have hab : a = b := by
      by_cases hEq : a = b
      · exact hEq
      · have hbmem : b ∈ a :: t₁ := hp.mem_iff.mpr (List.mem_cons_self b t₂)
        have hamem : a ∈ b :: t₂ := hp.mem_iff.mp (List.mem_cons_self a t₁)
        have hb₁ : b ∈ t₁ := by
          rcases List.mem_cons.mp hbmem with h | h
          · exact absurd h.symm hEq
          · exact h
        have ha₂ : a ∈ t₂ := by
          rcases List.mem_cons.mp hamem with h | h
          · exact absurd h hEq
          · exact h
        exact hanti a (List.mem_cons_self a t₁) b (List.mem_cons.mpr (Or.inr hb₁))
          (ha b hb₁) (hb a ha₂)
    subst hab
    have htp : t₁.Perm t₂ := hp.cons_inv
    have : t₁ = t₂ :=
      sorted_perm_eq htp ht₁ ht₂
        (fun x hx y hy => hanti x (List.mem_cons.mpr (Or.inr hx)) y (List.mem_cons.mpr (Or.inr hy)))
    rw [this]

/-- One timed event handed to `assign_stacks`: the tuple
`(start, end, title, meta)` with an opaque metadata payload. -/
structure Ev (μ : Type) where
  start : Int
  stop : Int
  title : String
  meta : μ
deriving DecidableEq, Repr

instance [Inhabited μ] : Inhabited (Ev μ) :=
  ⟨⟨0, 0, "", default⟩⟩

/-- One output record of `assign_stacks`. -/
structure Layered (μ : Type) where
  start : Int
  stop : Int
  title : String
  meta : μ
  layer_index : Nat
  width_frac : ℚ
deriving DecidableEq, Repr

/-- The `overlaps` helper of `assign_stacks`: `e1[0] < e2[1] and e2[0] < e1[1]`. -/
def overlapsB (a b : Ev μ) : Bool :=
  decide (a.start < b.stop) && decide (b.start < a.stop)

/-- The overlap graph's adjacency: `graph[i]`, the set of indices `j ≠ i`
whose event overlaps event `i`. -/
def neighbors [Inhabited μ] (evs : List (Ev μ)) (i : Nat) : List Nat :=
  (List.range evs.length).filter (fun j =>
    decide (j ≠ i) && overlapsB (evs.getD i default) (evs.getD j default))

theorem length_filter_le_of_imp {l : List Nat} {p p2 : Nat → Bool}
    (himp : ∀ x ∈ l, p2 x = true → p x = true) :
    (l.filter p2).length ≤ (l.filter p).length := by
  rw [← List.countP_eq_length_filter, ← List.countP_eq_length_filter]
  exact List.countP_mono_left himp

theorem length_filter_lt_of_imp {l : List Nat} {p p2 : Nat → Bool}
    (himp : ∀ x, p2 x = true → p x = true) {a : Nat}
    (ha : a ∈ l) (hpa : p a = true) (hpa2 : p2 a = false) :
    (l.filter p2).length < (l.filter p).length := by
  induction l with
  | nil => cases ha
  | cons b t ih =>
    by_cases hb : b = a
    · subst hb
      rw [List.filter_cons, List.filter_cons, hpa, hpa2]
      simp only [if_true, if_false]
      have := @length_filter_le_of_imp t p p2 (fun x _ h => himp x h)
      simpa using Nat.lt_succ_of_le this
    · have hat : a ∈ t := by
        rcases List.mem_cons.mp ha with h | h
        · exact absurd h.symm hb
        · exact h
      rw [List.filter_cons, List.filter_cons]
      by_cases h2 : p2 b = true
      · rw [h2, himp b h2]
        simpa using Nat.succ_lt_succ (ih hat)
      · rw [Bool.not_eq_true] at h2
        rw [h2]
        have hle : ((if p b = true then b :: t.filter p else t.filter p)).length ≥ (t.filter p).length := by
          by_cases hpb : p b = true
          · rw [if_pos hpb]; simp [Nat.le_succ]
          · rw [if_neg hpb]
        calc (List.filter p2 t).length < (t.filter p).length := ih hat
          _ ≤ _ := hle

/-- Breadth-first traversal of one connected cluster, with an explicit queue
and visited set (`assign_stacks`, lines 56-64).  The guard `q < n` is dead in
every reachable call (queue entries are always indices below `n`) and exists
only to bound the recursion. -/
def bfs (n : Nat) (adj : Nat → List Nat) : List Nat → List Nat → List Nat → List Nat × List Nat
  | [], visited, cluster => (cluster, visited)
  | q :: qs, visited, cluster =>
    if h : q ∉ visited ∧ q < n then
      bfs n adj (qs ++ adj q) (q :: visited) (cluster ++ [q])
    else
      bfs n adj qs visited cluster
termination_by queue visited _ =>
  (((List.range n).filter (fun x => decide (x ∉ visited))).length, queue.length)
decreasing_by
  · apply Prod.Lex.left
    refine length_filter_lt_of_imp ?_ (List.mem_range.mpr h.2) ?_ ?_
    · intro x hx
      simp only [decide_eq_true_eq, List.mem_cons, not_or] at hx ⊢
      exact hx.2
    · simp [h.1]
    · simp
  · apply Prod.Lex.right
    simp

/-- The cluster-finding loop of `assign_stacks` (lines 52-64): scan indices in
order, starting a BFS at each index not yet visited. -/
def clustersAux (n : Nat) (adj : Nat → List Nat) :
    List Nat → List Nat → List (List Nat) → List (List Nat) × List Nat
  | [], visited, acc => (acc, visited)
  | i :: rest, visited, acc =>
    if i ∈ visited then clustersAux n adj rest visited acc
    else
      let r := bfs n adj [i] visited []
      clustersAux n adj rest r.2 (acc ++ [r.1])

/-- The connected overlap clusters of an event list, as lists of indices. -/
def clustersOf [Inhabited μ] (evs : List (Ev μ)) : List (List Nat) :=
  (clustersAux evs.length (neighbors evs) (List.range evs.length) [] []).1

/-- The per-layer fit check: `all(end <= s or start >= e for s, e in layer)`. -/
def fitsLayer (start stop : Int) (layer : List (Int × Int)) : Bool :=
  layer.all (fun se => decide (stop ≤ se.1) || decide (start ≥ se.2))

/-- Scan the existing layers in order and put the interval into the first
layer it fits (lines 78-84); if none fits, open a new layer at the end
(lines 85-87).  Returns the updated layers and the assigned layer index. -/
def placeEvent (start stop : Int) : List (List (Int × Int)) → List (List (Int × Int)) × Nat
  | [] => ([[(start, stop)]], 0)
  | layer :: rest =>
    if fitsLayer start stop layer then ((layer ++ [(start, stop)]) :: rest, 0)
    else
      let pr := placeEvent start stop rest
      (layer :: pr.1, pr.2 + 1)

/-- The assignment loop over the sorted cluster events (lines 75-87):
`layers` grows greedily and `assignments` maps event index to layer index. -/
def assignLoop : List (Nat × Ev μ) → List (List (Int × Int)) → List (Nat × Nat) →
    List (List (Int × Int)) × List (Nat × Nat)
  | [], layers, asg => (layers, asg)
  | p :: rest, layers, asg =>
    let pr := placeEvent p.2.start p.2.stop layers
    assignLoop rest pr.1 (asg ++ [(p.1, pr.2)])

/-- The sort key of line 73: duration descending, then start ascending
(total seconds and minutes order the same way). -/
def evKey (p : Nat × Ev μ) : Int × Int :=
  (-(p.2.stop - p.2.start), p.2.start)

/-- Lexicographic boolean comparison by a two-component key, the order Python
uses on key tuples. -/
def lexLe [LinearOrder β] [LinearOrder γ] (k : α → β × γ) (a b : α) : Bool :=
  decide ((k a).1 < (k b).1) || (decide ((k a).1 = (k b).1) && decide ((k a).2 ≤ (k b).2))

/-- Layers and assignments computed for one cluster. -/
def clusterLayers [Inhabited μ] (evs : List (Ev μ)) (cluster : List Nat) :
    List (List (Int × Int)) × List (Nat × Nat) :=
  let cluster_events := cluster.map (fun i => (i, evs.getD i default))
  assignLoop (sortB (lexLe evKey) cluster_events) [] []

/-- The layer count of one cluster (`max_depth = len(layers)`, line 89). -/
def clusterDepth [Inhabited μ] (evs : List (Ev μ)) (cluster : List Nat) : Nat :=
  (clusterLayers evs cluster).1.length

/-- The emission loop for one cluster (lines 98-108): iterate the cluster's
events in BFS order and attach `layer_index` and `width_frac`. -/
def processCluster [Inhabited μ] (evs : List (Ev μ)) (cluster : List Nat) : List (Layered μ) :=
  let cluster_events := cluster.map (fun i => (i, evs.getD i default))
  let asg := (clusterLayers evs cluster).2
  let max_depth := clusterDepth evs cluster
  cluster_events.map (fun p =>
    let li := (asg.lookup p.1).getD 0
    ⟨p.2.start, p.2.stop, p.2.title, p.2.meta, li,
     ((max_depth : ℚ) - (li : ℚ)) / (max_depth : ℚ)⟩)

/-- `assign_stacks`: cluster the events, layer each cluster greedily, emit one
record per input event. -/
def assign_stacks [Inhabited μ] (evs : List (Ev μ)) : List (Layered μ) :=
  ((clustersOf evs).map (processCluster evs)).flatten

theorem bfs_spec (n : Nat) (adj : Nat → List Nat) :
    ∀ (queue visited cluster : List Nat),
      ∃ d, (bfs n adj queue visited cluster).1 = cluster ++ d ∧
        (bfs n adj queue visited cluster).2.Perm (d ++ visited) ∧
        (∀ x ∈ d, x < n ∧ x ∉ visited) ∧ d.Nodup := by
  intro queue visited cluster
  induction queue, visited, cluster using bfs.induct n adj with
  | case1 visited cluster =>
    exact ⟨[], by simp [bfs], by simp [bfs], by simp, by simp⟩
  | case2 q qs visited cluster h ih =>
    obtain ⟨d, h1, h2, h3, h4⟩ := ih
    refine ⟨q :: d, ?_, ?_, ?_, ?_⟩
    · rw [bfs, dif_pos h, h1]
      simp
    · rw [bfs, dif_pos h]
      exact h2.trans List.perm_middle
    · intro x hx
      rcases List.mem_cons.mp hx with rfl | hx
      · exact ⟨h.2, h.1⟩
      · exact ⟨(h3 x hx).1, fun hv => (h3 x hx).2 (List.mem_cons_of_mem q hv)⟩
    · refine List.Pairwise.cons ?_ h4
      intro x hx
      have := (h3 x hx).2
      intro hqx
      subst hqx
      exact this (List.mem_cons_self q visited)
  | case3 q qs visited cluster h ih =>
    obtain ⟨d, h1, h2, h3, h4⟩ := ih
    refine ⟨d, ?_, ?_, h3, h4⟩
    · rw [bfs, dif_neg h]
      exact h1
    · rw [bfs, dif_neg h]
      exact h2

theorem bfs_visits_head (n : Nat) (adj : Nat → List Nat) (q : Nat)
    (qs visited cluster : List Nat) (h1 : q ∉ visited) (h2 : q < n) :
    q ∈ (bfs n adj (q :: qs) visited cluster).2 := by
  rw [bfs, dif_pos ⟨h1, h2⟩]
  obtain ⟨d, _, hp, _, _⟩ := bfs_spec n adj (qs ++ adj q) (q :: visited) (cluster ++ [q])
  exact hp.mem_iff.mpr (by simp)

theorem bfs_visited_mono (n : Nat) (adj : Nat → List Nat)
    (queue visited cluster : List Nat) {x : Nat} (hx : x ∈ visited) :
    x ∈ (bfs n adj queue visited cluster).2 := by
  obtain ⟨d, _, hp, _, _⟩ := bfs_spec n adj queue visited cluster
  exact hp.mem_iff.mpr (by simp [hx])

theorem bfs_visited_nodup (n : Nat) (adj : Nat → List Nat)
    (queue visited cluster : List Nat) (h : visited.Nodup) :
    (bfs n adj queue visited cluster).2.Nodup := by
  obtain ⟨d, _, hp, h3, h4⟩ := bfs_spec n adj queue visited cluster
  refine hp.nodup_iff.mpr (List.Nodup.append h4 h ?_)
  intro a ha
  exact (h3 a ha).2

theorem bfs_start_cluster (n : Nat) (adj : Nat → List Nat) (q : Nat)
    (qs visited : List Nat) (h1 : q ∉ visited) (h2 : q < n) :
    ∃ d, (bfs n adj (q :: qs) visited []).1 = q :: d := by
  rw [bfs, dif_pos ⟨h1, h2⟩]
  obtain ⟨d, hd, _, _, _⟩ := bfs_spec n adj (qs ++ adj q) (q :: visited) ([] ++ [q])
  exact ⟨d, by simpa using hd⟩

theorem clustersAux_spec (n : Nat) (adj : Nat → List Nat) :
    ∀ (is : List Nat) (visited : List Nat) (acc : List (List Nat)),
      (∀ i ∈ is, i < n) →
      ∃ cs, (clustersAux n adj is visited acc).1 = acc ++ cs ∧
        (clustersAux n adj is visited acc).2.Perm (cs.flatten ++ visited) ∧
        (∀ x ∈ cs.flatten, x < n ∧ x ∉ visited) ∧
        (∀ c ∈ cs, c ≠ [] ∧ c.Nodup) ∧
        (∀ i ∈ is, i ∈ (clustersAux n adj is visited acc).2) ∧
        (visited.Nodup → (clustersAux n adj is visited acc).2.Nodup) := by
  intro is
  induction is with
  | nil =>
    intro visited acc _
    exact ⟨[], by simp [clustersAux], by simp [clustersAux], by simp, by simp,
      by simp, by simp [clustersAux]⟩
  | cons i rest ih =>
    intro visited acc his
    have hrest : ∀ j ∈ rest, j < n := fun j hj => his j (List.mem_cons_of_mem i hj)
    by_cases hiv : i ∈ visited
    · have heq : clustersAux n adj (i :: rest) visited acc = clustersAux n adj rest visited acc := by
        rw [clustersAux, if_pos hiv]
      obtain ⟨cs, h1, h2, h3, h4, h5, h6⟩ := ih visited acc hrest
      refine ⟨cs, by rw [heq]; exact h1, by rw [heq]; exact h2, h3, h4, ?_, by rw [heq]; exact h6⟩
      intro j hj
      rw [heq]
      rcases List.mem_cons.mp hj with rfl | hj
      · exact h2.mem_iff.mpr (by simp [hiv])
      · exact h5 j hj
    · have hin : i < n := his i (List.mem_cons_self i rest)
      have heq : clustersAux n adj (i :: rest) visited acc =
          clustersAux n adj rest (bfs n adj [i] visited []).2
            (acc ++ [(bfs n adj [i] visited []).1]) := by
        rw [clustersAux, if_neg hiv]
      obtain ⟨d, hd1, hd2, hd3, hd4⟩ := bfs_spec n adj [i] visited []
      have hd1e : (bfs n adj [i] visited []).1 = d := by simpa using hd1
      obtain ⟨cs, h1, h2, h3, h4, h5, h6⟩ :=
        ih (bfs n adj [i] visited []).2 (acc ++ [(bfs n adj [i] visited []).1]) hrest
      refine ⟨(bfs n adj [i] visited []).1 :: cs, ?_, ?_, ?_, ?_, ?_, ?_⟩
      · rw [heq, h1]
        simp
      · rw [heq]
        refine h2.trans ?_
        refine (List.Perm.append_left cs.flatten hd2).trans ?_
        rw [hd1e]
        have h7 : ((d :: cs).flatten ++ visited) = (d ++ cs.flatten) ++ visited := by simp
        rw [h7, ← List.append_assoc]
        exact (List.perm_append_comm).append_right visited
      · intro x hx
        rw [hd1e] at hx
        simp only [List.flatten_cons, List.mem_append] at hx
        rcases hx with hx | hx
        · exact hd3 x hx
        · refine ⟨(h3 x hx).1, fun hv => (h3 x hx).2 ?_⟩
          exact hd2.mem_iff.mpr (by simp [hv])
      · intro c hc
        rcases List.mem_cons.mp hc with rfl | hc
        · obtain ⟨d0, hstart⟩ := bfs_start_cluster n adj i [] visited hiv hin
          refine ⟨by rw [hstart]; exact List.cons_ne_nil i d0, by rw [hd1e]; exact hd4⟩
        · exact h4 c hc
      · intro j hj
        rw [heq]
        rcases List.mem_cons.mp hj with rfl | hj
        · have : j ∈ (bfs n adj [j] visited []).2 :=
            bfs_visits_head n adj j [] visited [] hiv hin
          exact h2.mem_iff.mpr (by simp [this])
        · exact h5 j hj
      · intro hnd
        rw [heq]
        exact h6 (bfs_visited_nodup n adj [i] visited [] hnd)

theorem clustersOf_props [Inhabited μ] (evs : List (Ev μ)) :
    (clustersOf evs).flatten.Perm (List.range evs.length) ∧
    ∀ c ∈ clustersOf evs, c ≠ [] ∧ c.Nodup ∧ ∀ x ∈ c, x < evs.length := by
  obtain ⟨cs, h1, h2, h3, h4, h5, h6⟩ :=
    clustersAux_spec evs.length (neighbors evs) (List.range evs.length) [] []
      (fun i hi => List.mem_range.mp hi)
  have hcs : clustersOf evs = cs := by simpa [clustersOf] using h1
  have hvf : (clustersAux evs.length (neighbors evs) (List.range evs.length) [] []).2.Perm
      cs.flatten := by simpa using h2
  have hnd : cs.flatten.Nodup := hvf.nodup_iff.mp (h6 List.nodup_nil)
  have hperm : cs.flatten.Perm (List.range evs.length) := by
    refine (List.perm_ext_iff_of_nodup hnd (List.nodup_range _)).mpr ?_
    intro a
    constructor
    · intro ha
      exact List.mem_range.mpr (h3 a ha).1
    · intro ha
      exact hvf.mem_iff.mp (h5 a ha)
  constructor
  · rw [hcs]; exact hperm
  · intro c hc
    rw [hcs] at hc
    refine ⟨(h4 c hc).1, (h4 c hc).2, ?_⟩
    intro x hx
    exact (h3 x (List.mem_flatten.mpr ⟨c, hc, hx⟩)).1

/-- Interval compatibility inside one layer: the intervals do not overlap. -/
def nonOv (p q : Int × Int) : Prop :=
  ¬(p.1 < q.2 ∧ q.1 < p.2)

theorem nonOv_symm {p q : Int × Int} (h : nonOv p q) : nonOv q p := by
  unfold nonOv at h ⊢
  tauto

theorem fitsLayer_iff {s e : Int} {layer : List (Int × Int)} :
    fitsLayer s e layer = true ↔ ∀ pq ∈ layer, nonOv (s, e) pq := by
  simp only [fitsLayer, List.all_eq_true, Bool.or_eq_true, decide_eq_true_eq, ge_iff_le, nonOv]
  constructor
  · intro h pq hpq
    have h2 := h pq hpq
    omega
  · intro h pq hpq
    have h2 := h pq hpq
    omega

theorem placeEvent_cases (s e : Int) :
    ∀ layers : List (List (Int × Int)),
      (∃ pre l post, layers = pre ++ l :: post ∧ (placeEvent s e layers).2 = pre.length ∧
        fitsLayer s e l = true ∧ (placeEvent s e layers).1 = pre ++ (l ++ [(s, e)]) :: post) ∨
      ((placeEvent s e layers).2 = layers.length ∧
        (placeEvent s e layers).1 = layers ++ [[(s, e)]]) := by
  intro layers
  induction layers with
  | nil => exact Or.inr ⟨rfl, rfl⟩
  | cons layer rest ih =>
    by_cases hfit : fitsLayer s e layer = true
    · refine Or.inl ⟨[], layer, rest, by simp, ?_, hfit, ?_⟩
      · simp [placeEvent, hfit]
      · simp [placeEvent, hfit]
    · rcases ih with ⟨pre, l, post, hL, hidx, hfitl, hfst⟩ | ⟨hidx, hfst⟩
      · refine Or.inl ⟨layer :: pre, l, post, by rw [hL]; rfl, ?_, hfitl, ?_⟩
        · simp [placeEvent, hfit, hidx]
        · simp [placeEvent, hfit, hfst]
      · refine Or.inr ⟨?_, ?_⟩
        · simp [placeEvent, hfit, hidx]
        · simp [placeEvent, hfit, hfst]

theorem getD_append_length (pre : List α) (x : α) (post : List α) (dflt : α) :
    (pre ++ x :: post).getD pre.length dflt = x := by
  induction pre with
  | nil => rfl
  | cons p pre ih => simpa using ih

theorem getD_two_append {x y : α} (pre post : List α) (dflt : α) :
    ∀ k, k ≠ pre.length →
      (pre ++ x :: post).getD k dflt = (pre ++ y :: post).getD k dflt := by
  induction pre with
  | nil =>
    intro k hk
    cases k with
    | zero => exact absurd rfl hk
    | succ k2 => rfl
  | cons p pre ih =>
    intro k hk
    cases k with
    | zero => rfl
    | succ k2 =>
      simp only [List.cons_append, List.getD_cons_succ]
      exact ih k2 (fun h => hk (by simp [h]))

theorem getD_append_lt (l l2 : List α) (dflt : α) :
    ∀ k, k < l.length → (l ++ l2).getD k dflt = l.getD k dflt := by
  induction l with
  | nil => intro k hk; cases hk
  | cons a t ih =>
    intro k hk
    cases k with
    | zero => rfl
    | succ k2 =>
      simp only [List.cons_append, List.getD_cons_succ]
      exact ih k2 (by simpa using hk)

theorem mem_getD_of_lt (l : List α) (dflt : α) :
    ∀ k, k < l.length → l.getD k dflt ∈ l := by
  induction l with
  | nil => intro k hk; cases hk
  | cons a t ih =>
    intro k hk
    cases k with
    | zero => exact List.mem_cons_self a t
    | succ k2 => exact List.mem_cons_of_mem a (ih k2 (by simpa using hk))

theorem placeEvent_length_pos (s e : Int) (layers : List (List (Int × Int))) :
    1 ≤ (placeEvent s e layers).1.length := by
  rcases placeEvent_cases s e layers with ⟨pre, l, post, hL, _, _, hfst⟩ | ⟨_, hfst⟩
  · rw [hfst]
    simp only [List.length_append, List.length_cons]
    omega
  · rw [hfst]
    simp only [List.length_append, List.length_cons]
    omega

/-- The invariant carried through the assignment loop: every recorded layer
index is in range and its interval is stored in that layer; layers are
pairwise non-overlapping; assigned events with equal layer index have
non-overlapping intervals; the assignment list extends by exactly the
processed indices; and the layer list only grows. -/
theorem assignLoop_inv {μ : Type} (ivl : Nat → Int × Int) :
    ∀ (ievs : List (Nat × Ev μ)) (layers : List (List (Int × Int))) (asg : List (Nat × Nat)),
      (∀ p ∈ ievs, ((p.2.start : Int), p.2.stop) = ivl p.1) →
      (∀ pr ∈ asg, pr.2 < layers.length ∧ ivl pr.1 ∈ layers.getD pr.2 []) →
      (∀ layer ∈ layers, layer.Pairwise nonOv) →
      asg.Pairwise (fun a b => a.2 = b.2 → nonOv (ivl a.1) (ivl b.1)) →
      (∀ pr ∈ (assignLoop ievs layers asg).2,
          pr.2 < (assignLoop ievs layers asg).1.length ∧
          ivl pr.1 ∈ (assignLoop ievs layers asg).1.getD pr.2 []) ∧
      (∀ layer ∈ (assignLoop ievs layers asg).1, layer.Pairwise nonOv) ∧
      (assignLoop ievs layers asg).2.Pairwise
        (fun a b => a.2 = b.2 → nonOv (ivl a.1) (ivl b.1)) ∧
      (∃ suffix, (assignLoop ievs layers asg).2 = asg ++ suffix ∧
        suffix.map Prod.fst = ievs.map Prod.fst) ∧
      layers.length ≤ (assignLoop ievs layers asg).1.length := by
  intro ievs
  induction ievs with
  | nil =>
    intro layers asg hievs hasg hlay hpw
    exact ⟨hasg, hlay, hpw, ⟨[], by simp [assignLoop], by simp⟩, le_refl _⟩
  | cons p rest ih =>
    intro layers asg hievs hasg hlay hpw
    have hp : ((p.2.start : Int), p.2.stop) = ivl p.1 :=
      hievs p (List.mem_cons_self p rest)
    have hrest : ∀ q ∈ rest, ((q.2.start : Int), q.2.stop) = ivl q.1 :=
      fun q hq => hievs q (List.mem_cons_of_mem p hq)
    have hstep : assignLoop (p :: rest) layers asg =
        assignLoop rest (placeEvent p.2.start p.2.stop layers).1
          (asg ++ [(p.1, (placeEvent p.2.start p.2.stop layers).2)]) := rfl
    set pr := placeEvent p.2.start p.2.stop layers with hpr
    set se : Int × Int := (p.2.start, p.2.stop) with hse
    have hseivl : se = ivl p.1 := hp
    have hcases := placeEvent_cases p.2.start p.2.stop layers
    have hlen : layers.length ≤ pr.1.length := by
      rcases hcases with ⟨pre, l, post, hL, _, _, hfst⟩ | ⟨_, hfst⟩
      · rw [← hpr] at hfst
        rw [hfst, hL]
        simp only [List.length_append, List.length_cons]
        omega
      · rw [← hpr] at hfst
        rw [hfst]
        simp only [List.length_append, List.length_cons]
        omega
    have key : (∀ x ∈ asg ++ [(p.1, pr.2)], x.2 < pr.1.length ∧ ivl x.1 ∈ pr.1.getD x.2 []) ∧
        (∀ layer ∈ pr.1, layer.Pairwise nonOv) ∧
        (asg ++ [(p.1, pr.2)]).Pairwise
          (fun a b => a.2 = b.2 → nonOv (ivl a.1) (ivl b.1)) := by
      rcases hcases with ⟨pre, l, post, hL, hidx, hfit, hfst⟩ | ⟨hidx, hfst⟩
      · -- placed into an existing layer
        rw [← hpr] at hidx hfst
        have hlen2 : pr.1.length = layers.length := by rw [hfst, hL]; simp
        have hidxlt : pr.2 < layers.length := by rw [hidx, hL]; simp
        have hgetold : layers.getD pr.2 [] = l := by rw [hL, hidx]; exact getD_append_length pre l post []
        have hgetnew : pr.1.getD pr.2 [] = l ++ [se] := by
          rw [hfst, hidx]; exact getD_append_length pre (l ++ [se]) post []
        have hgetne : ∀ k, k ≠ pr.2 → pr.1.getD k [] = layers.getD k [] := by
          intro k hk
          rw [hfst, hL, hidx] at *
          exact getD_two_append pre post [] k hk
        have hfits : ∀ pq ∈ l, nonOv se pq := by
          intro pq hpq
          exact fitsLayer_iff.mp hfit pq hpq
        refine ⟨?_, ?_, ?_⟩
        · intro x hx
          rcases List.mem_append.mp hx with hx | hx
          · obtain ⟨hlt, hmem⟩ := hasg x hx
            refine ⟨by rw [hlen2]; exact hlt, ?_⟩
            by_cases hkx : x.2 = pr.2
            · rw [hkx, hgetnew]
              rw [hkx, hgetold] at hmem
              exact List.mem_append.mpr (Or.inl hmem)
            · rw [hgetne x.2 hkx]
              exact hmem
          · have hx2 : x = (p.1, pr.2) := by simpa using hx
            subst hx2
            refine ⟨by rw [hlen2]; exact hidxlt, ?_⟩
            rw [hgetnew, ← hseivl]
            simp
        · intro layer hlayer
          rw [hfst] at hlayer
          rcases List.mem_append.mp hlayer with hl2 | hl2
          · exact hlay layer (by rw [hL]; exact List.mem_append.mpr (Or.inl hl2))
          · rcases List.mem_cons.mp hl2 with rfl | hl2
            · have hlp : l.Pairwise nonOv :=
                hlay l (by rw [hL]; exact List.mem_append.mpr (Or.inr (List.mem_cons_self l post)))
              refine List.pairwise_append.mpr ⟨hlp, by simp, ?_⟩
              intro y hy z hz
              have hz2 : z = se := by simpa using hz
              subst hz2
              exact nonOv_symm (hfits y hy)
            · refine hlay layer ?_
              rw [hL]
              exact List.mem_append.mpr (Or.inr (List.mem_cons_of_mem l hl2))
        · refine List.pairwise_append.mpr ⟨hpw, by simp, ?_⟩
          intro a ha b hb
          have hb2 : b = (p.1, pr.2) := by simpa using hb
          subst hb2
          intro hab
          obtain ⟨_, hmem⟩ := hasg a ha
          rw [hab, hgetold] at hmem
          rw [← hseivl]
          exact nonOv_symm (hfits (ivl a.1) hmem)
      · -- opened a new layer at the end
        rw [← hpr] at hidx hfst
        have hlen2 : pr.1.length = layers.length + 1 := by rw [hfst]; simp
        have hgetnew : pr.1.getD pr.2 [] = [se] := by
          rw [hfst, hidx]
          exact getD_append_length layers [se] [] []
        refine ⟨?_, ?_, ?_⟩
        · intro x hx
          rcases List.mem_append.mp hx with hx | hx
          · obtain ⟨hlt, hmem⟩ := hasg x hx
            refine ⟨by omega, ?_⟩
            rw [hfst, getD_append_lt layers [[se]] [] x.2 hlt]
            exact hmem
          · have hx2 : x = (p.1, pr.2) := by simpa using hx
            subst hx2
            refine ⟨by omega, ?_⟩
            rw [hgetnew, ← hseivl]
            simp
        · intro layer hlayer
          rw [hfst] at hlayer
          rcases List.mem_append.mp hlayer with hl2 | hl2
          · exact hlay layer hl2
          · have : layer = [se] := by simpa using hl2
            subst this
            simp
        · refine List.pairwise_append.mpr ⟨hpw, by simp, ?_⟩
          intro a ha b hb
          have hb2 : b = (p.1, pr.2) := by simpa using hb
          subst hb2
          intro hab
          obtain ⟨hlt, _⟩ := hasg a ha
          rw [hab, hidx] at hlt
          exact absurd hlt (lt_irrefl _)
    obtain ⟨H2, H3, H4⟩ := key
    obtain ⟨G1, G2, G3, ⟨suffix, hs1, hs2⟩, G5⟩ :=
      ih pr.1 (asg ++ [(p.1, pr.2)]) hrest H2 H3 H4
    rw [hstep]
    refine ⟨G1, G2, G3, ⟨(p.1, pr.2) :: suffix, ?_, ?_⟩, le_trans hlen G5⟩
    · rw [hs1]
      simp
    · simp [hs2]

theorem assignLoop_length_pos {μ : Type} :
    ∀ (ievs : List (Nat × Ev μ)) (layers : List (List (Int × Int))) (asg : List (Nat × Nat)),
      ievs ≠ [] → 1 ≤ (assignLoop ievs layers asg).1.length
  | [], _, _, h => absurd rfl h
  | p :: rest, layers, asg, _ => by
    have hstep : assignLoop (p :: rest) layers asg =
        assignLoop rest (placeEvent p.2.start p.2.stop layers).1
          (asg ++ [(p.1, (placeEvent p.2.start p.2.stop layers).2)]) := rfl
    rw [hstep]
    by_cases hr : rest = []
    · subst hr
      exact placeEvent_length_pos p.2.start p.2.stop layers
    · exact assignLoop_length_pos rest _ _ hr

theorem lookup_eq_of_mem {l : List (Nat × Nat)} (hnd : (l.map Prod.fst).Nodup) :
    ∀ {k v : Nat}, (k, v) ∈ l → l.lookup k = some v := by
  induction l with
  | nil => intro k v h; cases h
  | cons p t ih =>
    intro k v h
    rcases List.mem_cons.mp h with he | h
    · rw [← he]
      simp [List.lookup]
    · have hk : k ∈ t.map Prod.fst := List.mem_map.mpr ⟨(k, v), h, rfl⟩
      have hne : k ≠ p.1 := by
        intro hkp
        subst hkp
        exact (List.nodup_cons.mp hnd).1 hk
      have : (k == p.1) = false := by simpa using hne
      simp [List.lookup, this]
      exact ih (List.nodup_cons.mp hnd).2 h

theorem mem_keys_exists {l : List (Nat × Nat)} {k : Nat} (hk : k ∈ l.map Prod.fst) :
    ∃ v, (k, v) ∈ l := by
  obtain ⟨p, hp, he⟩ := List.mem_map.mp hk
  subst he
  exact ⟨p.2, hp⟩

theorem clusterLayers_facts {μ : Type} [Inhabited μ] (evs : List (Ev μ)) (c : List Nat)
    (hnd : c.Nodup) :
    (∀ i ∈ c, ∃ v, ((clusterLayers evs c).2.lookup i) = some v ∧ v < clusterDepth evs c) ∧
    (∀ i ∈ c, ∀ j ∈ c, i ≠ j →
      ((clusterLayers evs c).2.lookup i).getD 0 = ((clusterLayers evs c).2.lookup j).getD 0 →
      nonOv ((evs.getD i default).start, (evs.getD i default).stop)
        ((evs.getD j default).start, (evs.getD j default).stop)) ∧
    (c ≠ [] → 1 ≤ clusterDepth evs c) := by
  have hperm : (sortB (lexLe evKey) (c.map (fun i => (i, evs.getD i default)))).Perm
      (c.map (fun i => (i, evs.getD i default))) := sortB_perm _ _
  have hmem : ∀ p ∈ sortB (lexLe evKey) (c.map (fun i => (i, evs.getD i default))),
      ((p.2.start : Int), p.2.stop) =
        (fun i => ((evs.getD i default).start, (evs.getD i default).stop)) p.1 := by
    intro p hp
    obtain ⟨i, _, he⟩ := List.mem_map.mp (hperm.mem_iff.mp hp)
    rw [← he]
  obtain ⟨H1, H2, H3, ⟨suffix, hs1, hs2⟩, H5⟩ :=
    assignLoop_inv (fun i => ((evs.getD i default).start, (evs.getD i default).stop))
      (sortB (lexLe evKey) (c.map (fun i => (i, evs.getD i default)))) [] [] hmem
      (by simp) (by simp) (by simp)
  have hfold : clusterLayers evs c =
      assignLoop (sortB (lexLe evKey) (c.map (fun i => (i, evs.getD i default)))) [] [] := rfl
  have hkeys : (clusterLayers evs c).2.map Prod.fst = (sortB (lexLe evKey)
      (c.map (fun i => (i, evs.getD i default)))).map Prod.fst := by
    rw [hfold, hs1]
    simpa using hs2
  have hkeysperm : ((clusterLayers evs c).2.map Prod.fst).Perm c := by
    rw [hkeys]
    refine (hperm.map Prod.fst).trans ?_
    have hid : List.map Prod.fst (List.map (fun i => (i, evs.getD i default)) c) = c := by
      rw [List.map_map]
      exact List.map_id c
    rw [hid]
  have hkeysnd : ((clusterLayers evs c).2.map Prod.fst).Nodup :=
    hkeysperm.nodup_iff.mpr hnd
  have hlook : ∀ i ∈ c, ∃ v, ((clusterLayers evs c).2.lookup i) = some v ∧
      (i, v) ∈ (clusterLayers evs c).2 ∧ v < clusterDepth evs c := by
    intro i hi
    obtain ⟨v, hv⟩ := mem_keys_exists (hkeysperm.mem_iff.mpr hi)
    refine ⟨v, lookup_eq_of_mem hkeysnd hv, hv, ?_⟩
    have hv2 := hv
    rw [hfold] at hv2
    exact (H1 (i, v) hv2).1
  refine ⟨?_, ?_, ?_⟩
  · intro i hi
    obtain ⟨v, hv1, _, hv3⟩ := hlook i hi
    exact ⟨v, hv1, hv3⟩
  · intro i hi j hj hij heq
    obtain ⟨vi, hvi1, hvi2, _⟩ := hlook i hi
    obtain ⟨vj, hvj1, hvj2, _⟩ := hlook j hj
    rw [hvi1, hvj1] at heq
    simp only [Option.getD_some] at heq
    have hsym : Symmetric (fun a b : Nat × Nat => a.2 = b.2 →
        nonOv ((fun i => ((evs.getD i default).start, (evs.getD i default).stop)) a.1)
          ((fun i => ((evs.getD i default).start, (evs.getD i default).stop)) b.1)) := by
      intro a b hab h
      exact nonOv_symm (hab h.symm)
    have hpw : (clusterLayers evs c).2.Pairwise (fun a b => a.2 = b.2 →
        nonOv ((fun i => ((evs.getD i default).start, (evs.getD i default).stop)) a.1)
          ((fun i => ((evs.getD i default).start, (evs.getD i default).stop)) b.1)) := by
      rw [hfold]
      exact H3
    have hne : ((i, vi) : Nat × Nat) ≠ (j, vj) := by
      intro h
      exact hij (congrArg Prod.fst h)
    exact hpw.forall hsym hvi2 hvj2 hne heq
  · intro hcne
    have hlen0 : (sortB (lexLe evKey) (c.map (fun i => (i, evs.getD i default)))).length =
        c.length := by
      rw [hperm.length_eq]
      simp
    have hne2 : sortB (lexLe evKey) (c.map (fun i => (i, evs.getD i default))) ≠ [] := by
      intro h
      rw [h] at hlen0
      simp only [List.length_nil] at hlen0
      exact hcne (List.length_eq_zero.mp hlen0.symm)
    exact assignLoop_length_pos
      (sortB (lexLe evKey) (c.map (fun i => (i, evs.getD i default)))) [] [] hne2

theorem width_bounds (d v : Nat) (hv : v < d) :
    (0 : ℚ) < ((d : ℚ) - (v : ℚ)) / (d : ℚ) ∧ ((d : ℚ) - (v : ℚ)) / (d : ℚ) ≤ 1 := by
  have hd : (0 : ℚ) < (d : ℚ) := by exact_mod_cast Nat.lt_of_le_of_lt (Nat.zero_le v) hv
  have hvd : (v : ℚ) < (d : ℚ) := by exact_mod_cast hv
  constructor
  · exact div_pos (by linarith) hd
  · rw [div_le_one hd]
    have : (0 : ℚ) ≤ (v : ℚ) := by positivity
    linarith

theorem width_mono (d v w : Nat) (hd : 0 < d) (hvw : v < w) :
    ((d : ℚ) - (w : ℚ)) / (d : ℚ) < ((d : ℚ) - (v : ℚ)) / (d : ℚ) := by
  have hdq : (0 : ℚ) < (d : ℚ) := by exact_mod_cast hd
  have hvwq : (v : ℚ) < (w : ℚ) := by exact_mod_cast hvw
  rw [div_lt_div_iff_of_pos_right hdq]
  linarith

/-- C1: within one cluster, the interval of every output equals its event's
interval, its layer index is the recorded assignment, and membership facts. -/
theorem processCluster_proj {μ : Type} [Inhabited μ] (evs : List (Ev μ)) (c : List Nat)
    (a : Nat) (ha : a < c.length) :
    (processCluster evs c).length = c.length ∧
    ((hpc : a < (processCluster evs c).length) →
      (processCluster evs c).get ⟨a, hpc⟩ =
        ⟨(evs.getD (c.get ⟨a, ha⟩) default).start, (evs.getD (c.get ⟨a, ha⟩) default).stop,
         (evs.getD (c.get ⟨a, ha⟩) default).title, (evs.getD (c.get ⟨a, ha⟩) default).meta,
         (((clusterLayers evs c).2.lookup (c.get ⟨a, ha⟩)).getD 0),
         ((clusterDepth evs c : ℚ) -
            ((((clusterLayers evs c).2.lookup (c.get ⟨a, ha⟩)).getD 0 : Nat) : ℚ)) /
           (clusterDepth evs c : ℚ)⟩) := by
  constructor
  · simp [processCluster]
  · intro hpc
    simp [processCluster, List.get_eq_getElem]

/-- C1, no-collision invariant: two distinct outputs of the same cluster with
equal layer index have non-overlapping `[start, stop)` intervals. -/
theorem claim1_same_layer_no_overlap {μ : Type} [Inhabited μ] (evs : List (Ev μ))
    (c : List Nat) (hc : c ∈ clustersOf evs) (a b : Nat)
    (ha : a < (processCluster evs c).length) (hb : b < (processCluster evs c).length)
    (hab : a ≠ b)
    (hl : ((processCluster evs c).get ⟨a, ha⟩).layer_index =
      ((processCluster evs c).get ⟨b, hb⟩).layer_index) :
    ¬(((processCluster evs c).get ⟨a, ha⟩).start < ((processCluster evs c).get ⟨b, hb⟩).stop ∧
      ((processCluster evs c).get ⟨b, hb⟩).start < ((processCluster evs c).get ⟨a, ha⟩).stop) := by
  obtain ⟨hne, hnd, hltn⟩ := (clustersOf_props evs).2 c hc
  obtain ⟨F1, F2, F3⟩ := clusterLayers_facts evs c hnd
  have hlenc : (processCluster evs c).length = c.length := by simp [processCluster]
  have ha2 : a < c.length := hlenc ▸ ha
  have hb2 : b < c.length := hlenc ▸ hb
  have hga := (processCluster_proj evs c a ha2).2 ha
  have hgb := (processCluster_proj evs c b hb2).2 hb
  set i := c.get (⟨a, ha2⟩ : Fin c.length) with hi
  set j := c.get (⟨b, hb2⟩ : Fin c.length) with hj
  have hic : i ∈ c := List.get_mem c a ha2
  have hjc : j ∈ c := List.get_mem c b hb2
  have hij : i ≠ j := by
    intro h
    have h2 := (List.Nodup.get_inj_iff hnd).mp h
    exact hab (congrArg Fin.val h2)
  rw [hga, hgb] at hl ⊢
  exact F2 i hic j hjc hij hl

theorem processCluster_mem {μ : Type} [Inhabited μ] {evs : List (Ev μ)} {c : List Nat}
    {out : Layered μ} (hout : out ∈ processCluster evs c) :
    ∃ i ∈ c, out =
      ⟨(evs.getD i default).start, (evs.getD i default).stop,
       (evs.getD i default).title, (evs.getD i default).meta,
       (((clusterLayers evs c).2.lookup i).getD 0),
       ((clusterDepth evs c : ℚ) - ((((clusterLayers evs c).2.lookup i).getD 0 : Nat) : ℚ)) /
         (clusterDepth evs c : ℚ)⟩ := by
  simp only [processCluster, List.mem_map] at hout
  obtain ⟨p, ⟨i, hi, he2⟩, he⟩ := hout
  refine ⟨i, hi, ?_⟩
  rw [← he, ← he2]

/-- C2: every output's width fraction follows the `(maxDepth - layerIndex) /
maxDepth` formula, lies in `(0, 1]`, and decreases strictly with the layer
index inside one cluster. -/
theorem claim2_width_fraction {μ : Type} [Inhabited μ] (evs : List (Ev μ)) (c : List Nat)
    (hc : c ∈ clustersOf evs) :
    (∀ out ∈ processCluster evs c,
      out.width_frac =
        ((clusterDepth evs c : ℚ) - (out.layer_index : ℚ)) / (clusterDepth evs c : ℚ) ∧
      0 < out.width_frac ∧ out.width_frac ≤ 1) ∧
    (∀ o1 ∈ processCluster evs c, ∀ o2 ∈ processCluster evs c,
      o1.layer_index < o2.layer_index → o2.width_frac < o1.width_frac) := by
  obtain ⟨hne, hnd, hltn⟩ := (clustersOf_props evs).2 c hc
  obtain ⟨F1, F2, F3⟩ := clusterLayers_facts evs c hnd
  have hd : 1 ≤ clusterDepth evs c := F3 hne
  have hli : ∀ out ∈ processCluster evs c, out.layer_index < clusterDepth evs c ∧
      out.width_frac =
        ((clusterDepth evs c : ℚ) - (out.layer_index : ℚ)) / (clusterDepth evs c : ℚ) := by
    intro out hout
    obtain ⟨i, hi, he⟩ := processCluster_mem hout
    obtain ⟨v, hv1, hv2⟩ := F1 i hi
    subst he
    simp only [hv1, Option.getD_some]
    exact ⟨hv2, trivial⟩
  constructor
  · intro out hout
    obtain ⟨h1, h2⟩ := hli out hout
    refine ⟨h2, ?_, ?_⟩
    · rw [h2]
      exact (width_bounds _ _ h1).1
    · rw [h2]
      exact (width_bounds _ _ h1).2
  · intro o1 h1 o2 h2 hlt
    obtain ⟨hb1, hw1⟩ := hli o1 h1
    obtain ⟨hb2, hw2⟩ := hli o2 h2
    rw [hw1, hw2]
    exact width_mono _ _ _ (Nat.lt_of_lt_of_le Nat.zero_lt_one hd) hlt

/-- The projection from a layouted record back to the input tuple. -/
def projEv (o : Layered μ) : Ev μ :=
  ⟨o.start, o.stop, o.title, o.meta⟩

theorem range_map_getD {α : Type} [Inhabited α] (l : List α) :
    (List.range l.length).map (fun i => l.getD i default) = l := by
  apply List.ext_getElem
  · simp
  · intro i h1 h2
    simp [List.getD_eq_getElem?_getD, List.getElem?_eq_getElem, h2]

/-- C10: the layout emits exactly one record per input event, preserving
start, stop, title and meta, and the empty input gives the empty output. -/
theorem claim10_event_preservation {μ : Type} [Inhabited μ] (evs : List (Ev μ)) :
    ((assign_stacks evs).map projEv).Perm evs ∧
      assign_stacks ([] : List (Ev μ)) = [] := by
  constructor
  · have h1 : (assign_stacks evs).map projEv =
        ((clustersOf evs).flatten).map (fun i => evs.getD i default) := by
      show (List.map projEv (((clustersOf evs).map (processCluster evs)).flatten)) = _
      rw [List.map_flatten, List.map_flatten, List.map_map]
      congr 1
      apply List.map_congr_left
      intro c _
      show List.map projEv (processCluster evs c) = _
      simp only [processCluster, List.map_map]
      apply List.map_congr_left
      intro i _
      rfl
    rw [h1]
    have h2 := ((clustersOf_props evs).1).map (fun i => evs.getD i default)
    rw [range_map_getD] at h2
    exact h2
  · rfl

/-- A three-event cluster: a long event covering two short back-to-back ones. -/
def evs0 : List (Ev Unit) :=
  [⟨0, 10, "C", ()⟩, ⟨0, 5, "A", ()⟩, ⟨5, 10, "B", ()⟩]

theorem clustersOf_evs0 : clustersOf evs0 = [[0, 1, 2]] := by
  simp [clustersOf, clustersAux, bfs, neighbors, evs0, overlapsB, List.range, List.range.loop]

theorem claim1_witness :
    ([0, 1, 2] ∈ clustersOf evs0) ∧ (1 : Nat) ≠ 2 ∧
    ((processCluster evs0 [0, 1, 2]).get ⟨1, by decide⟩).layer_index =
      ((processCluster evs0 [0, 1, 2]).get ⟨2, by decide⟩).layer_index ∧
    ¬(((processCluster evs0 [0, 1, 2]).get ⟨1, by decide⟩).start <
        ((processCluster evs0 [0, 1, 2]).get ⟨2, by decide⟩).stop ∧
      ((processCluster evs0 [0, 1, 2]).get ⟨2, by decide⟩).start <
        ((processCluster evs0 [0, 1, 2]).get ⟨1, by decide⟩).stop) := by
  have hc : [0, 1, 2] ∈ clustersOf evs0 := by
    rw [clustersOf_evs0]
    exact List.mem_cons_self _ _
  have hl : ((processCluster evs0 [0, 1, 2]).get ⟨1, by decide⟩).layer_index =
      ((processCluster evs0 [0, 1, 2]).get ⟨2, by decide⟩).layer_index := by decide
  exact ⟨hc, by decide, hl,
    claim1_same_layer_no_overlap evs0 [0, 1, 2] hc 1 2 (by decide) (by decide) (by decide) hl⟩

theorem claim2_witness :
    ([0, 1, 2] ∈ clustersOf evs0) ∧
    (∀ out ∈ processCluster evs0 [0, 1, 2],
      out.width_frac =
        ((clusterDepth evs0 [0, 1, 2] : ℚ) - (out.layer_index : ℚ)) /
          (clusterDepth evs0 [0, 1, 2] : ℚ) ∧
      0 < out.width_frac ∧ out.width_frac ≤ 1) ∧
    (∀ o1 ∈ processCluster evs0 [0, 1, 2], ∀ o2 ∈ processCluster evs0 [0, 1, 2],
      o1.layer_index < o2.layer_index → o2.width_frac < o1.width_frac) := by
  have hc : [0, 1, 2] ∈ clustersOf evs0 := by
    rw [clustersOf_evs0]
    exact List.mem_cons_self _ _
  obtain ⟨h1, h2⟩ := claim2_width_fraction evs0 [0, 1, 2] hc
  exact ⟨hc, h1, h2⟩

/-- C4 amended: `split_all_day_events` sends an instance to the all-day bucket
iff its metadata flags it all-day or its span covers the whole day window
(start at or before local midnight and end at or after next midnight); every
other instance is timed, and nothing is lost or duplicated. -/
theorem claim4_split_covering (events : List Inst) (target_date : Int) :
    (∀ e, e ∈ (split_all_day_events events target_date).1 ↔
      e ∈ events ∧ (e.meta.all_day = true ∨
        (e.start ≤ target_date * 1440 ∧ target_date * 1440 + 1440 ≤ e.stop))) ∧
    (∀ e, e ∈ (split_all_day_events events target_date).2 ↔
      e ∈ events ∧ ¬(e.meta.all_day = true ∨
        (e.start ≤ target_date * 1440 ∧ target_date * 1440 + 1440 ≤ e.stop))) ∧
    ((split_all_day_events events target_date).1 ++
      (split_all_day_events events target_date).2).Perm events := by
  simp only [split_all_day_events, List.partition_eq_filter_filter]
  have hbool : ∀ e : Inst,
      ((e.meta.all_day || (decide (e.start ≤ target_date * 1440) &&
        decide (target_date * 1440 + 1440 ≤ e.stop))) = true) ↔
      (e.meta.all_day = true ∨
        (e.start ≤ target_date * 1440 ∧ target_date * 1440 + 1440 ≤ e.stop)) := by
    intro e
    simp
  refine ⟨?_, ?_, ?_⟩
  · intro e
    rw [List.mem_filter, hbool]
  · intro e
    rw [List.mem_filter]
    constructor
    · rintro ⟨he, hb⟩
      simp only [Function.comp_apply, Bool.not_eq_eq_eq_not, Bool.not_true] at hb
      refine ⟨he, fun hc => ?_⟩
      rw [(hbool e).mpr hc] at hb
      cases hb
    · rintro ⟨he, hn⟩
      refine ⟨he, ?_⟩
      simp only [Function.comp_apply, Bool.not_eq_eq_eq_not, Bool.not_true]
      by_cases hpe : (e.meta.all_day || (decide (e.start ≤ target_date * 1440) &&
          decide (target_date * 1440 + 1440 ≤ e.stop))) = true
      · exact absurd ((hbool e).mp hpe) hn
      · simpa using hpe
  · exact List.filter_append_perm _ events

/-- A timed instance strictly containing the whole day window of day 206. -/
def inst4 : Inst :=
  ⟨206 * 1440 - 60, 207 * 1440 + 60, "Span", ⟨"u4", "c", false, none⟩⟩

/-- C4 counterexample: an unflagged instance whose span strictly contains the
day window is put in the all-day bucket, not the timed one as the claim
demands. -/
theorem claim4_counterexample :
    inst4.meta.all_day = false ∧
    inst4.start < 206 * 1440 ∧ 206 * 1440 + 1440 < inst4.stop ∧
    (split_all_day_events [inst4] 206).1 = [inst4] ∧
    (split_all_day_events [inst4] 206).2 = [] := by decide

/-- Grid hours `[6, 18)` with the off-grid-to-all-day policy enabled. -/
def cfg3 : Config :=
  ⟨6, 18, true⟩

/-- A one-off timed event 22:00 to 23:00 on the given day. -/
def comp3 (day : Int) : VEvent :=
  ⟨"u3", "Evening", DtValue.dt (day * 1440 + 1320), some (DtValue.dt (day * 1440 + 1380)),
   none, none, [], none, none, none, none, none⟩

/-- C3 counterexample: the off-grid 22:00 to 23:00 event keeps its original
bounds (start 22:00, not local midnight), so the claim's clamped-to-the-full-
window bounds are wrong. -/
theorem claim3_counterexample :
    expand_event_for_day cfg3 (comp3 100) "c" 100 (fun _ => []) =
      [⟨100 * 1440 + 1320, 100 * 1440 + 1380, "Evening",
        ⟨"u3", "c", true, some ("22:00–23:00")⟩⟩] ∧
    (100 : Int) * 1440 + 1320 ≠ 100 * 1440 := by decide

/-- C3 amended: with grid `[6, 18)` and the policy on, the 22:00 to 23:00
event expands to one all-day-flagged instance whose bounds are clamped INTO
the day window — `start = max(original start, startOfDay)` and
`end = min(original end, startOfNextDay)`, here the unchanged 22:00 to 23:00 —
with `timeLabel = "22:00–23:00"`. -/
theorem claim3_offgrid_clamp (day : Int) :
    expand_event_for_day cfg3 (comp3 day) "c" day (fun _ => []) =
      [⟨day * 1440 + 1320, day * 1440 + 1380, "Evening",
        ⟨"u3", "c", true, some ("22:00–23:00")⟩⟩] := by
  have h1 : (day * 1440 + 1320) / 1440 = day := by omega
  have h2 : (day * 1440 + 1320) % 1440 = 1320 := by omega
  have h3 : (day * 1440 + 1380) % 1440 = 1380 := by omega
  have hmax : max (day * 1440 + 1320) (day * 1440) = day * 1440 + 1320 :=
    max_eq_left (by omega)
  have hmin : min (day * 1440 + 1380) (day * 1440 + 1440) = day * 1440 + 1380 :=
    min_eq_left (by omega)
  have hfmtA : fmt_time (day * 1440 + 1320) = "22:00" := by
    simp only [fmt_time, h2]
    decide
  have hfmtB : fmt_time (day * 1440 + 1380) = "23:00" := by
    simp only [fmt_time, h3]
    decide
  simp only [expand_event_for_day, comp3, normalize, _get_raw_end, cfg3, h1, if_pos rfl]
  simp only [if_true, true_and, offgrid_pass, List.filterMap_cons, List.filterMap_nil]
  rw [if_pos (show (day * 1440 + 1380 > day * 1440) ∧
      day * 1440 + 1320 < day * 1440 + 1440 from ⟨by omega, by omega⟩)]
  rw [if_pos (Or.inr (show (day * 1440 + 1320 ≥ day * 1440 + 18 * 60) by omega))]
  simp [hmax, hmin, hfmtA, hfmtB]

/-- The date-only event spanning `[2024-03-01, 2024-03-03)` (epoch days 19783
to 19785). -/
def comp9 : VEvent :=
  ⟨"u9", "Trip", DtValue.d 19783, some (DtValue.d 19785), none, none, [], none,
   none, none, none, none⟩

/-- Auxiliary: the date-only branch of `expand_event_for_day` on a component
whose derived end is a DATE. -/
theorem expand_date_only (cfg : Config) (comp : VEvent) (color : String)
    (target_date : Int) (om : String → List Int) (S E : Int)
    (hs : comp.dtstart = DtValue.d S) (he : _get_raw_end comp = DtValue.d E) :
    expand_event_for_day cfg comp color target_date om =
      (if S ≤ target_date ∧ target_date < E then
        [⟨target_date * 1440, target_date * 1440 + 1440, comp.summary,
          ⟨comp.uid, color, true, none⟩⟩]
      else []) := by
  simp only [expand_event_for_day, hs, he]

/-- C9: a date-only component with start date `S` whose derived end
(`_get_raw_end`, i.e. DTEND / DTSTART + DURATION / DTSTART) is a date `E`
expands to exactly one midnight-to-midnight all-day instance when
`S ≤ D < E`, and to nothing otherwise; in particular the
`[2024-03-01, 2024-03-03)` event expanded for 2024-03-02 gives exactly one
such instance.  The hypothesis `he` restricts the statement to derived ends
that really are dates: a DATE-TIME derived end is never converted by line
181 (`datetime` subclasses `date`), and then the comparison at line 182
raises `TypeError` whenever `S ≤ D` — see `expand_raises_type_error`. -/
theorem claim9_all_day (cfg : Config) (comp : VEvent) (color : String)
    (target_date : Int) (om : String → List Int) (S E : Int)
    (hs : comp.dtstart = DtValue.d S) (he : _get_raw_end comp = DtValue.d E) :
    expand_event_for_day cfg comp color target_date om =
      (if S ≤ target_date ∧ target_date < E then
        [⟨target_date * 1440, target_date * 1440 + 1440, comp.summary,
          ⟨comp.uid, color, true, none⟩⟩]
      else []) ∧
    expand_event_for_day cfg comp9 color 19784 om =
      [⟨19784 * 1440, 19784 * 1440 + 1440, "Trip", ⟨"u9", color, true, none⟩⟩] := by
  constructor
  · exact expand_date_only cfg comp color target_date om S E hs he
  · rw [expand_date_only cfg comp9 color 19784 om 19783 19785 rfl rfl]
    rw [if_pos (show (19783 : Int) ≤ 19784 ∧ (19784 : Int) < 19785 from
      ⟨by norm_num, by norm_num⟩)]
    rfl

theorem claim9_witness :
    comp9.dtstart = DtValue.d 19783 ∧
    _get_raw_end comp9 = DtValue.d 19785 ∧
    (expand_event_for_day ⟨6, 18, false⟩ comp9 ("c") 19784 (fun _ => []) =
      (if (19783 : Int) ≤ 19784 ∧ (19784 : Int) < 19785 then
        [⟨19784 * 1440, 19784 * 1440 + 1440, comp9.summary, ⟨comp9.uid, "c", true, none⟩⟩]
      else []) ∧
    expand_event_for_day ⟨6, 18, false⟩ comp9 ("c") 19784 (fun _ => []) =
      [⟨19784 * 1440, 19784 * 1440 + 1440, "Trip", ⟨"u9", "c", true, none⟩⟩]) :=
  ⟨rfl, rfl,
   claim9_all_day ⟨6, 18, false⟩ comp9 ("c") 19784 (fun _ => []) 19783 19785 rfl rfl⟩

/-- One step of the per-day deduplication loop of `ephemeris.py` (lines
103-108): an instance whose UID was already accepted today is discarded. -/
def dedupStep (st : List String × List Inst) (inst : Inst) : List String × List Inst :=
  if inst.meta.uid ∈ st.1 then st else (inst.meta.uid :: st.1, st.2 ++ [inst])

/-- The per-day expansion-and-deduplication loop of `ephemeris.py` (lines
99-108): expand every RawEvent for the day, keeping only the first instance
of each UID. -/
def expand_all_dedup (cfg : Config) (raws : List RawEvent) (target_date : Int) : List Inst :=
  (raws.foldl (fun st r =>
    (expand_event_for_day cfg r.comp r.color target_date (build_override_map raws)).foldl
      dedupStep st) ([], [])).2

theorem dedupStep_inv {st : List String × List Inst} {inst : Inst}
    (h1 : ∀ i ∈ st.2, i.meta.uid ∈ st.1)
    (h2 : (st.2.map (fun i => i.meta.uid)).Nodup) :
    (∀ i ∈ (dedupStep st inst).2, i.meta.uid ∈ (dedupStep st inst).1) ∧
    ((dedupStep st inst).2.map (fun i => i.meta.uid)).Nodup := by
  unfold dedupStep
  by_cases h : inst.meta.uid ∈ st.1
  · rw [if_pos h]
    exact ⟨h1, h2⟩
  · rw [if_neg h]
    constructor
    · intro i hi
      rcases List.mem_append.mp hi with hi | hi
      · exact List.mem_cons_of_mem _ (h1 i hi)
      · have : i = inst := by simpa using hi
        subst this
        exact List.mem_cons_self _ _
    · rw [List.map_append]
      refine List.Nodup.append h2 (by simp) ?_
      intro u hu hu2
      have hu3 : u = inst.meta.uid := by simpa using hu2
      subst hu3
      obtain ⟨i, hi, he⟩ := List.mem_map.mp hu
      exact h (he ▸ h1 i hi)

theorem foldl_dedup_inv :
    ∀ (l : List Inst) (st : List String × List Inst),
      (∀ i ∈ st.2, i.meta.uid ∈ st.1) → ((st.2.map (fun i => i.meta.uid)).Nodup) →
      (∀ i ∈ (l.foldl dedupStep st).2, i.meta.uid ∈ (l.foldl dedupStep st).1) ∧
      (((l.foldl dedupStep st).2.map (fun i => i.meta.uid)).Nodup)
  | [], st, h1, h2 => ⟨h1, h2⟩
  | inst :: rest, st, h1, h2 => by
    obtain ⟨g1, g2⟩ := dedupStep_inv h1 h2
    exact foldl_dedup_inv rest (dedupStep st inst) g1 g2

theorem foldl_outer_dedup_inv (g : RawEvent → List Inst) :
    ∀ (raws : List RawEvent) (st : List String × List Inst),
      (∀ i ∈ st.2, i.meta.uid ∈ st.1) → ((st.2.map (fun i => i.meta.uid)).Nodup) →
      (∀ i ∈ (raws.foldl (fun st r => (g r).foldl dedupStep st) st).2,
        i.meta.uid ∈ (raws.foldl (fun st r => (g r).foldl dedupStep st) st).1) ∧
      (((raws.foldl (fun st r => (g r).foldl dedupStep st) st).2.map
        (fun i => i.meta.uid)).Nodup)
  | [], st, h1, h2 => ⟨h1, h2⟩
  | r :: rest, st, h1, h2 => by
    obtain ⟨g1, g2⟩ := foldl_dedup_inv (g r) st h1 h2
    exact foldl_outer_dedup_inv g rest ((g r).foldl dedupStep st) g1 g2

/-- C6: after the per-day expansion-and-deduplication loop, the accepted
instance list carries pairwise distinct UIDs (at most one instance per UID),
whatever `expand_event_for_day` emitted. -/
theorem claim6_dedup_unique_uid (cfg : Config) (raws : List RawEvent) (target_date : Int) :
    ((expand_all_dedup cfg raws target_date).map (fun i => i.meta.uid)).Nodup := by
  exact (foldl_outer_dedup_inv
    (fun r => expand_event_for_day cfg r.comp r.color target_date (build_override_map raws))
    raws ([], []) (by simp) (by simp)).2

theorem normalize_dt (t : Int) : normalize (DtValue.dt t) = t := rfl

theorem filterMap_filter_erase {α β : Type} [DecidableEq α] {f : α → Option β} {occ : α}
    (hocc : f occ = none) :
    ∀ (l : List α) (win : α → Bool),
      (l.filter win).filterMap f =
        ((l.filter (fun x => decide (x ≠ occ))).filter win).filterMap f := by
  intro l win
  induction l with
  | nil => rfl
  | cons x t ih =>
    by_cases hx : x = occ
    · subst hx
      have h1 : (x :: t).filter (fun y => decide (y ≠ x)) = t.filter (fun y => decide (y ≠ x)) := by
        rw [List.filter_cons]
        simp
      rw [h1, List.filter_cons]
      by_cases hw : win x = true
      · rw [if_pos hw, List.filterMap_cons, hocc]
        exact ih
      · rw [if_neg hw]
        exact ih
    · have h1 : (x :: t).filter (fun y => decide (y ≠ occ)) =
          x :: t.filter (fun y => decide (y ≠ occ)) := by
        rw [List.filter_cons]
        simp [hx]
      rw [h1, List.filter_cons, List.filter_cons]
      by_cases hw : win x = true
      · rw [if_pos hw, if_pos hw, List.filterMap_cons, List.filterMap_cons, ih]
      · rw [if_neg hw, if_neg hw]
        exact ih

/-- C7: an occurrence listed in the Override Index contributes nothing to the
recurring expansion (removing it from the rule changes nothing), while the
standalone override component, expanded as its own RawEvent, still emits its
own instance on its date. -/
theorem claim7_override (cfg : Config) (raws : List RawEvent) (comp : VEvent)
    (color : String) (target_date : Int) (occs : List Int) (occ : Int)
    (hr : comp.rrule = some occs)
    (hov : occ ∈ build_override_map raws comp.uid)
    (comp2 : VEvent) (color2 : String) (t2 : Int)
    (h2r : comp2.rrule = none) (h2s : comp2.dtstart = DtValue.dt t2)
    (h2d : t2 / 1440 = target_date)
    (h2en : target_date * 1440 < normalize (_get_raw_end comp2))
    (h2off : cfg.convert_offgrid = false) :
    expand_event_for_day cfg comp color target_date (build_override_map raws) =
      expand_event_for_day cfg
        { comp with rrule := some (occs.filter (fun x => decide (x ≠ occ))) }
        color target_date (build_override_map raws) ∧
    expand_event_for_day cfg comp2 color2 target_date (build_override_map raws) =
      [⟨t2, normalize (_get_raw_end comp2), comp2.summary,
        ⟨comp2.uid, color2, false, none⟩⟩] := by
  constructor
  · obtain ⟨u, sm, dts, de, du, rr, ex, ri, a1, a2, a3, a4⟩ := comp
    have hr2 : rr = some occs := hr
    have hov2 : occ ∈ build_override_map raws u := hov
    subst hr2
    cases dts with
    | d sday => rfl
    | dt t =>
      simp only [expand_event_for_day, _get_raw_end]
      refine congrArg (offgrid_pass cfg (target_date * 1440) (target_date * 1440 + 1440)) ?_
      refine filterMap_filter_erase ?_ occs _
      rw [if_pos hov2]
  · simp only [expand_event_for_day, h2s, h2r, normalize_dt]
    rw [if_pos h2d]
    simp only [offgrid_pass, List.filterMap_cons, List.filterMap_nil]
    rw [if_pos (show normalize (_get_raw_end comp2) > target_date * 1440 ∧
        t2 < target_date * 1440 + 1440 from ⟨h2en, by omega⟩)]
    rw [if_neg (show ¬(cfg.convert_offgrid = true ∧
        (normalize (_get_raw_end comp2) ≤ target_date * 1440 + cfg.start_hour * 60 ∨
          t2 ≥ target_date * 1440 + cfg.end_hour * 60)) from by
      rintro ⟨hh, _⟩
      rw [h2off] at hh
      cases hh)]

/-- Grid hours `[6, 18)` with the off-grid policy disabled. -/
def cfg7 : Config :=
  ⟨6, 18, false⟩

/-- A recurring series with UID `X`, occurrences at 10:00 on days 200 to 202. -/
def comp7 : VEvent :=
  ⟨"X", "Standup", DtValue.dt (200 * 1440 + 600), some (DtValue.dt (200 * 1440 + 630)),
   none, some [200 * 1440 + 600, 201 * 1440 + 600, 202 * 1440 + 600], [], none,
   none, none, none, none⟩

/-- The standalone override for UID `X` at day 201 10:00, moved to 11:00. -/
def ov7 : VEvent :=
  ⟨"X", "Standup moved", DtValue.dt (201 * 1440 + 660), some (DtValue.dt (201 * 1440 + 690)),
   none, none, [], some (201 * 1440 + 600), none, none, none, none⟩

/-- The raw-event collection holding the series and its override. -/
def raws7 : List RawEvent :=
  [⟨comp7, "c", "cal"⟩, ⟨ov7, "c", "cal"⟩]

theorem claim7_witness :
    comp7.rrule = some [200 * 1440 + 600, 201 * 1440 + 600, 202 * 1440 + 600] ∧
    ((201 * 1440 + 600 : Int) ∈ build_override_map raws7 comp7.uid) ∧
    ov7.rrule = none ∧ ov7.dtstart = DtValue.dt (201 * 1440 + 660) ∧
    ((201 * 1440 + 660 : Int) / 1440 = 201) ∧
    ((201 : Int) * 1440 < normalize (_get_raw_end ov7)) ∧
    cfg7.convert_offgrid = false ∧
    (expand_event_for_day cfg7 comp7 ("c") 201 (build_override_map raws7) =
      expand_event_for_day cfg7
        { comp7 with rrule := some ([200 * 1440 + 600, 201 * 1440 + 600,
            202 * 1440 + 600].filter (fun x => decide (x ≠ 201 * 1440 + 600))) }
        "c" 201 (build_override_map raws7)) ∧
    (expand_event_for_day cfg7 ov7 ("c2") 201 (build_override_map raws7) =
      [⟨201 * 1440 + 660, normalize (_get_raw_end ov7), ov7.summary,
        ⟨ov7.uid, "c2", false, none⟩⟩]) := by
  obtain ⟨hA, hB⟩ := claim7_override cfg7 raws7 comp7 ("c") 201
    [200 * 1440 + 600, 201 * 1440 + 600, 202 * 1440 + 600] (201 * 1440 + 600) rfl
    (by decide) ov7 ("c2") (201 * 1440 + 660) rfl rfl (by decide) (by decide) rfl
  exact ⟨rfl, by decide, rfl, rfl, by decide, by decide, rfl, hA, hB⟩

/-- The outcome of fetching and parsing one ICS payload; the network/file
layer and the ICS parser are external, so the model carries their result. -/
inductive Fetched
  | ok (cal : List VEvent)
  | err (msg : String)
deriving DecidableEq, Repr

/-- The three source shapes `load_raw_events` distinguishes: an HTTP URL, a
local file, and a directory of `.ics` files. -/
inductive SourceKind
  | http (r : Fetched)
  | file (r : Fetched)
  | dir (files : List Fetched)
deriving DecidableEq, Repr

/-- One calendar-source descriptor `{name, color, source}`. -/
structure SourceEntry where
  name : String
  color : String
  kind : SourceKind
deriving DecidableEq, Repr

/-- `extract_raw_events`: walk the parsed calendar's VEVENTs, attaching the
source's color and name. -/
def extract_raw_events (cal : List VEvent) (color : String) (name : String) : List RawEvent :=
  cal.map (fun c => ⟨c, color, name⟩)

/-- `_dtstart_value`: the sort key of the final `sorted` call — DTSTART with
dates lifted to midnight (timezone attachment is the identity here). -/
def _dtstart_value (comp : VEvent) : Int :=
  normalize comp.dtstart

/-- Directory scan (lines 120-130): each file is downloaded and parsed with
no exception handler, so the first failure propagates. -/
def dirEvents (color name : String) : List Fetched → Except String (List RawEvent)
  | [] => Except.ok []
  | Fetched.err m :: _ => Except.error m
  | Fetched.ok cal :: rest =>
    match dirEvents color name rest with
    | Except.error m => Except.error m
    | Except.ok evs => Except.ok (extract_raw_events cal color name ++ evs)

/-- The local phase of `load_raw_events` (lines 115-134): files and
directories are fetched sequentially with no exception handler, so any
failure aborts the loader. -/
def localEvents : List SourceEntry → Except String (List RawEvent)
  | [] => Except.ok []
  | e :: rest =>
    match e.kind with
    | SourceKind.http _ => localEvents rest
    | SourceKind.file (Fetched.err m) => Except.error m
    | SourceKind.file (Fetched.ok cal) =>
      match localEvents rest with
      | Except.error m => Except.error m
      | Except.ok r => Except.ok (extract_raw_events cal e.color e.name ++ r)
    | SourceKind.dir files =>
      match dirEvents e.color e.name files with
      | Except.error m => Except.error m
      | Except.ok evs =>
        match localEvents rest with
        | Except.error m => Except.error m
        | Except.ok r => Except.ok (evs ++ r)

/-- The HTTP phase (lines 136-156): results are gathered with
`return_exceptions=True`, so a failed fetch is logged and skipped. -/
def httpEvents : List SourceEntry → List RawEvent
  | [] => []
  | e :: rest =>
    match e.kind with
    | SourceKind.http (Fetched.ok cal) => extract_raw_events cal e.color e.name ++ httpEvents rest
    | SourceKind.http (Fetched.err _) => httpEvents rest
    | SourceKind.file _ => httpEvents rest
    | SourceKind.dir _ => httpEvents rest

/-- `load_raw_events`: local sources first, then HTTP sources, then one flat
sort by normalized DTSTART. -/
def load_raw_events (sources : List SourceEntry) : Except String (List RawEvent) :=
  match localEvents sources with
  | Except.error m => Except.error m
  | Except.ok l =>
    Except.ok (sortB (fun a b => decide (_dtstart_value a.comp ≤ _dtstart_value b.comp))
      (l ++ httpEvents sources))

/-- The RawEvents of one entry's successful fetches (a failed HTTP fetch
contributes nothing). -/
def eventsOfEntry (e : SourceEntry) : List RawEvent :=
  match e.kind with
  | SourceKind.http (Fetched.ok cal) => extract_raw_events cal e.color e.name
  | SourceKind.http (Fetched.err _) => []
  | SourceKind.file (Fetched.ok cal) => extract_raw_events cal e.color e.name
  | SourceKind.file (Fetched.err _) => []
  | SourceKind.dir files =>
    (files.map (fun f => match f with
      | Fetched.ok cal => extract_raw_events cal e.color e.name
      | Fetched.err _ => [])).flatten

/-- The local-phase contribution of one entry. -/
def localPart (e : SourceEntry) : List RawEvent :=
  match e.kind with
  | SourceKind.http _ => []
  | SourceKind.file (Fetched.ok cal) => extract_raw_events cal e.color e.name
  | SourceKind.file (Fetched.err _) => []
  | SourceKind.dir files =>
    (files.map (fun f => match f with
      | Fetched.ok cal => extract_raw_events cal e.color e.name
      | Fetched.err _ => [])).flatten

/-- The HTTP-phase contribution of one entry. -/
def httpPart (e : SourceEntry) : List RawEvent :=
  match e.kind with
  | SourceKind.http (Fetched.ok cal) => extract_raw_events cal e.color e.name
  | SourceKind.http (Fetched.err _) => []
  | SourceKind.file _ => []
  | SourceKind.dir _ => []

/-- Whether every local fetch of the entry succeeds. -/
def localEntryOk (e : SourceEntry) : Bool :=
  match e.kind with
  | SourceKind.http _ => true
  | SourceKind.file (Fetched.ok _) => true
  | SourceKind.file (Fetched.err _) => false
  | SourceKind.dir files =>
    files.all (fun f => match f with
      | Fetched.ok _ => true
      | Fetched.err _ => false)

/-- Every local (file or directory) fetch across the source list succeeds. -/
def localFetchesOk (sources : List SourceEntry) : Prop :=
  ∀ e ∈ sources, localEntryOk e = true

instance (sources : List SourceEntry) : Decidable (localFetchesOk sources) :=
  List.decidableBAll _ sources

theorem eventsOfEntry_split (e : SourceEntry) :
    eventsOfEntry e = localPart e ++ httpPart e := by
  unfold eventsOfEntry localPart httpPart
  cases e.kind with
  | http r => cases r <;> simp
  | file r => cases r <;> simp
  | dir files => simp

theorem dirEvents_ok (color name : String) :
    ∀ files : List Fetched,
      (files.all (fun f => match f with
        | Fetched.ok _ => true
        | Fetched.err _ => false) = true) →
      dirEvents color name files =
        Except.ok ((files.map (fun f => match f with
          | Fetched.ok cal => extract_raw_events cal color name
          | Fetched.err _ => [])).flatten)
  | [], _ => rfl
  | Fetched.err m :: rest, h => by
    simp [List.all_cons] at h
  | Fetched.ok cal :: rest, h => by
    have hrest := dirEvents_ok color name rest (by simpa [List.all_cons] using h)
    simp only [dirEvents, hrest, List.map_cons, List.flatten_cons]

theorem localEvents_ok :
    ∀ sources : List SourceEntry, localFetchesOk sources →
      localEvents sources = Except.ok ((sources.map localPart).flatten)
  | [], _ => rfl
  | e :: rest, h => by
    have hrest := localEvents_ok rest (fun x hx => h x (List.mem_cons_of_mem e hx))
    have he : localEntryOk e = true := h e (List.mem_cons_self e rest)
    rw [List.map_cons, List.flatten_cons]
    cases hk : e.kind with
    | http r =>
      simp [localEvents, hk, hrest, localPart]
    | file r =>
      cases r with
      | ok cal =>
        simp [localEvents, hk, hrest, localPart]
      | err m =>
        rw [localEntryOk, hk] at he
        cases he
    | dir files =>
      have hfiles : files.all (fun f => match f with
          | Fetched.ok _ => true
          | Fetched.err _ => false) = true := by
        rw [localEntryOk, hk] at he
        exact he
      simp [localEvents, hk, dirEvents_ok e.color e.name files hfiles, hrest, localPart]

theorem httpEvents_eq :
    ∀ sources : List SourceEntry, httpEvents sources = (sources.map httpPart).flatten
  | [] => rfl
  | e :: rest => by
    have hrest := httpEvents_eq rest
    rw [List.map_cons, List.flatten_cons]
    cases hk : e.kind with
    | http r =>
      cases r with
      | ok cal =>
        simp [httpEvents, hk, hrest, httpPart]
      | err m =>
        simp [httpEvents, hk, hrest, httpPart]
    | file r =>
      simp [httpEvents, hk, hrest, httpPart]
    | dir files =>
      simp [httpEvents, hk, hrest, httpPart]

theorem flatten_map_append_perm {α β : Type} (f g : α → List β) :
    ∀ l : List α,
      ((l.map (fun e => f e ++ g e)).flatten).Perm ((l.map f).flatten ++ (l.map g).flatten)
  | [] => by simp
  | e :: rest => by
    have ih := flatten_map_append_perm f g rest
    simp only [List.map_cons, List.flatten_cons]
    refine (List.Perm.append_left (f e ++ g e) ih).trans ?_
    simp only [List.append_assoc]
    refine List.Perm.append_left (f e) ?_
    rw [← List.append_assoc, ← List.append_assoc]
    exact (List.perm_append_comm).append_right _

/-- C5 amended: HTTP failures alone are isolated — when every local fetch
succeeds, `load_raw_events` returns all surviving RawEvents (failed HTTP
sources dropped); a failing local file or directory instead aborts the whole
loader, as `claim5_counterexample` shows. -/
theorem claim5_local_ok_isolation (sources : List SourceEntry) (h : localFetchesOk sources) :
    ∃ l, load_raw_events sources = Except.ok l ∧
      l.Perm ((sources.map eventsOfEntry).flatten) := by
  refine ⟨_, by rw [load_raw_events, localEvents_ok sources h], ?_⟩
  refine (sortB_perm _ _).trans ?_
  rw [httpEvents_eq]
  have hsplit : sources.map eventsOfEntry = sources.map (fun e => localPart e ++ httpPart e) :=
    List.map_congr_left (fun e _ => eventsOfEntry_split e)
  rw [hsplit]
  exact (flatten_map_append_perm localPart httpPart sources).symm

/-- The single VEVENT carried by the healthy HTTP source of the C5 examples. -/
def comp5 : VEvent :=
  ⟨"u5", "HttpEvent", DtValue.dt (300 * 1440 + 600), none, none, none, [], none,
   none, none, none, none⟩

/-- A failing local file followed by a healthy HTTP source. -/
def srcs5 : List SourceEntry :=
  [⟨"bad", "red", SourceKind.file (Fetched.err ("io"))⟩,
   ⟨"good", "blue", SourceKind.http (Fetched.ok [comp5])⟩]

/-- C5 counterexample: one failing local file aborts ingestion with an error,
even though the remaining HTTP source parsed fine — the claim's "drops the
source and still returns the rest" is false for local sources. -/
theorem claim5_counterexample :
    load_raw_events srcs5 = Except.error ("io") ∧
    httpEvents srcs5 = [⟨comp5, "blue", "good"⟩] :=
  ⟨rfl, rfl⟩

/-- A healthy local file followed by a failing HTTP source. -/
def srcs5b : List SourceEntry :=
  [⟨"local", "green", SourceKind.file (Fetched.ok [comp5])⟩,
   ⟨"badhttp", "red", SourceKind.http (Fetched.err ("net"))⟩]

theorem claim5_witness :
    localFetchesOk srcs5b ∧
    ∃ l, load_raw_events srcs5b = Except.ok l ∧
      l.Perm ((srcs5b.map eventsOfEntry).flatten) :=
  ⟨by decide, claim5_local_ok_isolation srcs5b (by decide)⟩

theorem lexLe_iff {α β γ : Type} [LinearOrder β] [LinearOrder γ] (k : α → β × γ) (a b : α) :
    lexLe k a b = true ↔
      ((k a).1 < (k b).1 ∨ ((k a).1 = (k b).1 ∧ (k a).2 ≤ (k b).2)) := by
  simp [lexLe]

theorem lexLe_total {α β γ : Type} [LinearOrder β] [LinearOrder γ] (k : α → β × γ) (a b : α) :
    lexLe k a b = true ∨ lexLe k b a = true := by
  rw [lexLe_iff, lexLe_iff]
  rcases lt_trichotomy (k a).1 (k b).1 with h | h | h
  · exact Or.inl (Or.inl h)
  · rcases le_total (k a).2 (k b).2 with h2 | h2
    · exact Or.inl (Or.inr ⟨h, h2⟩)
    · exact Or.inr (Or.inr ⟨h.symm, h2⟩)
  · exact Or.inr (Or.inl h)

theorem lexLe_trans {α β γ : Type} [LinearOrder β] [LinearOrder γ] (k : α → β × γ) (a b c : α)
    (h1 : lexLe k a b = true) (h2 : lexLe k b c = true) : lexLe k a c = true := by
  rw [lexLe_iff] at h1 h2 ⊢
  rcases h1 with h1 | ⟨h1e, h1le⟩ <;> rcases h2 with h2 | ⟨h2e, h2le⟩
  · exact Or.inl (h1.trans h2)
  · exact Or.inl (h2e ▸ h1)
  · exact Or.inl (h1e ▸ h2)
  · exact Or.inr ⟨h1e.trans h2e, h1le.trans h2le⟩

theorem lexLe_antisymm {α β γ : Type} [LinearOrder β] [LinearOrder γ] (k : α → β × γ)
    (a b : α) (h1 : lexLe k a b = true) (h2 : lexLe k b a = true) : k a = k b := by
  rw [lexLe_iff] at h1 h2
  rcases h1 with h1 | ⟨h1e, h1le⟩
  · rcases h2 with h2 | ⟨h2e, _⟩
    · exact absurd (h1.trans h2) (lt_irrefl _)
    · exact absurd h1 (by rw [h2e]; exact lt_irrefl _)
  · rcases h2 with h2 | ⟨h2e, h2le⟩
    · exact absurd h2 (by rw [h1e]; exact lt_irrefl _)
    · exact Prod.ext h1e (le_antisymm h1le h2le)

theorem sortB_eq_of_perm {α : Type} {le : α → α → Bool}
    (htot : ∀ a b, le a b = true ∨ le b a = true)
    (htrans : ∀ a b c, le a b = true → le b c = true → le a c = true)
    {l₁ l₂ : List α} (hperm : l₁.Perm l₂)
    (hanti : ∀ a ∈ l₁, ∀ b ∈ l₁, le a b = true → le b a = true → a = b) :
    sortB le l₁ = sortB le l₂ := by
  refine sorted_perm_eq ?_ (sortB_pairwise htot htrans l₁) (sortB_pairwise htot htrans l₂) ?_
  · exact (sortB_perm le l₁).trans (hperm.trans (sortB_perm le l₂).symm)
  · intro a ha b hb
    exact hanti a ((sortB_perm le l₁).mem_iff.mp ha) b ((sortB_perm le l₁).mem_iff.mp hb)

/-- The `comp2.pop(prop)` loop of `compute_events_hash` (lines 312-314):
remove the four volatile bookkeeping properties before serializing. -/
def stripVolatile (c : VEvent) : VEvent :=
  { c with dtstamp := none, created := none, last_modified := none, sequence := none }

/-- The `(name, serializedBytes)` pairs fed to the hash.  `to_ical` is
modelled as the identity on the stripped component: the canonical
serialization of distinct components is distinct. -/
def hashItems (raws : List RawEvent) : List (String × VEvent) :=
  raws.map (fun r => (r.name, stripVolatile r.comp))

/-- `compute_events_hash` (lines 308-322).  The two SHA-256 uses are external
and modelled as parameters: `hdig` stands for the per-item
`sha256(bytes).hexdigest()` used only inside the sort key, and `H` for the
final digest of the framed concatenation of the sorted `(name, bytes)`
pairs.  Both are collision-free in the claims' intended reading, which the
theorems take as injectivity hypotheses. -/
def compute_events_hash {κ δ : Type} [LinearOrder κ] (hdig : VEvent → κ)
    (H : List (String × VEvent) → δ) (raws : List RawEvent) : δ :=
  H (sortB (lexLe (fun a : String × VEvent => (a.1, hdig a.2))) (hashItems raws))

/-- Mutate only the four volatile bookkeeping fields of a raw event. -/
def setVolatile (r : RawEvent) (v1 v2 v3 v4 : Option String) : RawEvent :=
  { r with comp :=
    { r.comp with dtstamp := v1, created := v2, last_modified := v3, sequence := v4 } }

/-- Mutate the event title of a raw event. -/
def setSummary (r : RawEvent) (t : String) : RawEvent :=
  { r with comp := { r.comp with summary := t } }

/-- C8: the change-detection digest is invariant under permutation of the
input, unchanged when only volatile bookkeeping fields change, and (for a
collision-free hash) changed when an event title changes. -/
theorem claim8_hash_stability {κ δ : Type} [LinearOrder κ] (hdig : VEvent → κ)
    (H : List (String × VEvent) → δ) (raws raws2 : List RawEvent)
    (hinj : ∀ x ∈ hashItems raws, ∀ y ∈ hashItems raws, hdig x.2 = hdig y.2 → x.2 = y.2)
    (hperm : raws.Perm raws2)
    (HI : Function.Injective H)
    (pre post : List RawEvent) (r : RawEvent) (v1 v2 v3 v4 : Option String)
    (t : String) (ht : t ≠ r.comp.summary) :
    compute_events_hash hdig H raws = compute_events_hash hdig H raws2 ∧
    compute_events_hash hdig H (pre ++ setVolatile r v1 v2 v3 v4 :: post) =
      compute_events_hash hdig H (pre ++ r :: post) ∧
    compute_events_hash hdig H (pre ++ setSummary r t :: post) ≠
      compute_events_hash hdig H (pre ++ r :: post) := by
  refine ⟨?_, ?_, ?_⟩
  · refine congrArg H (sortB_eq_of_perm (lexLe_total _) (lexLe_trans _) (hperm.map _) ?_)
    intro a ha b hb h1 h2
    have hk : ((a.1, hdig a.2) : String × κ) = (b.1, hdig b.2) :=
      lexLe_antisymm (fun a : String × VEvent => (a.1, hdig a.2)) a b h1 h2
    injection hk with hn hd
    exact Prod.ext hn (hinj a ha b hb hd)
  · have e1 : hashItems (pre ++ setVolatile r v1 v2 v3 v4 :: post) =
        hashItems (pre ++ r :: post) := by
      simp [hashItems, setVolatile, stripVolatile]
    rw [compute_events_hash, compute_events_hash, e1]
  · intro heq
    have hs := HI heq
    have hp : (hashItems (pre ++ setSummary r t :: post)).Perm
        (hashItems (pre ++ r :: post)) := by
      refine ((sortB_perm (lexLe (fun a : String × VEvent => (a.1, hdig a.2)))
        (hashItems (pre ++ setSummary r t :: post))).symm).trans ?_
      rw [hs]
      exact sortB_perm _ _
    have hitems1 : hashItems (pre ++ setSummary r t :: post) =
        hashItems pre ++ (r.name, stripVolatile (setSummary r t).comp) :: hashItems post := by
      simp [hashItems, setSummary]
    have hitems2 : hashItems (pre ++ r :: post) =
        hashItems pre ++ (r.name, stripVolatile r.comp) :: hashItems post := by
      simp [hashItems]
    rw [hitems1, hitems2] at hp
    have hne : ((r.name, stripVolatile (setSummary r t).comp) : String × VEvent) ≠
        (r.name, stripVolatile r.comp) := by
      intro hcon
      have h2 := congrArg (fun p : String × VEvent => p.2.summary) hcon
      simp only [stripVolatile, setSummary] at h2
      exact ht h2
    have hc := List.Perm.countP_eq
      (fun z => decide (z = ((r.name, stripVolatile (setSummary r t).comp) : String × VEvent))) hp
    simp only [List.countP_append, List.countP_cons] at hc
    simp only [decide_True, if_true] at hc
    rw [if_neg (show ¬((decide (((r.name, stripVolatile r.comp) : String × VEvent) =
        (r.name, stripVolatile (setSummary r t).comp))) = true) from by
      simp only [decide_eq_true_eq]
      exact fun hcon => hne hcon.symm)] at hc
    omega

/-- A component shared by the two calendars of the C8 example. -/
def comp8 : VEvent :=
  ⟨"uA", "T", DtValue.dt (400 * 1440 + 600), none, none, none, [], none,
   some ("s1"), none, none, none⟩

/-- The same component carried by two differently named calendars. -/
def r8a : RawEvent :=
  ⟨comp8, "c", "a"⟩

def r8b : RawEvent :=
  ⟨comp8, "c2", "b"⟩

theorem claim8_witness :
    (([r8a, r8b] : List RawEvent).Perm [r8b, r8a]) ∧
    (("T2" : String) ≠ r8a.comp.summary) ∧
    (compute_events_hash (fun _ => (0 : Nat)) (fun l => l) [r8a, r8b] =
        compute_events_hash (fun _ => (0 : Nat)) (fun l => l) [r8b, r8a] ∧
      compute_events_hash (fun _ => (0 : Nat)) (fun l => l)
          ([] ++ setVolatile r8a (some ("x")) none none none :: []) =
        compute_events_hash (fun _ => (0 : Nat)) (fun l => l) ([] ++ r8a :: []) ∧
      compute_events_hash (fun _ => (0 : Nat)) (fun l => l)
          ([] ++ setSummary r8a ("T2") :: []) ≠
        compute_events_hash (fun _ => (0 : Nat)) (fun l => l) ([] ++ r8a :: [])) :=
  ⟨by decide, by decide,
    claim8_hash_stability (fun _ => (0 : Nat)) (fun l => l) [r8a, r8b] [r8b, r8a]
      (by decide) (by decide) (fun a b h => h) [] [] r8a (some ("x")) none none none
      ("T2") (by decide)⟩

end Ephemeris
